import Mathlib

/-!
# AliGenEvtGen_dev: decay relinking

A shallow embedding of `src/AliGenEvtGen_dev.cxx` (`GetFlavour`, `Generate` and
`SetUserDecayTable`).

Modelling conventions

* `Int_t` values are integers; the 32-bit wrap is explicit where the source negates a
  value (`TMath::Abs`) and where it subtracts 1 from the first-mother index (line 186).
* `Double_t` and `Float_t` are two abstract scalar types `D` and `F`.  The arithmetic
  the source performs on them (addition of doubles, the conversions in both
  directions, the literals 0 and 1) is a parameter `FloatOps D F`, so every general
  statement holds for whatever rounding these operations perform.  The instance
  `float32Ops` makes the rounding of `Float_t` concrete on integer values.
* The collaborators (the particle stack behind `PushTrack`, `KeepTrack`,
  `SetHighWaterMark`, `GetNprimary`, and the decayer behind `Decay` and
  `ImportParticles`) are not part of the repository.  Their private state is an
  abstract type `σ` and their behaviour a parameter `Collaborators σ D F`.
* The `TParticle` records reached through `fStack->Particle(i)` are a map from stack
  index to record; `Generate` mutates them directly (`SetStatusCode`, `SetBit`,
  `ResetBit`).  The collaborator calls act on `σ` and are taken to leave alone the
  fields of these records that `Generate` reads.
* Every call `Generate` makes to a collaborator is recorded, in order, in an event
  log, together with the two warnings; the debug and info output is not modelled.
* The static array `particles` is overwritten by every `ImportParticles` call and
  cleared after each candidate; the model passes the contents of an answer by value.
* The `do ... while (np < 0)` loop has no bound in the source; the model gives it a
  budget of engine invocations and stops with `Halt.outOfFuel` when it is used up.
  A read of `pParent` outside the vector is undefined behaviour in the source; the
  model stops with `Halt.outOfBounds`.
* A C string is a `String`, a null pointer `none`; `gSystem->AccessPathName` is a
  parameter of `SetUserDecayTable`.
-/

namespace AliGenEvtGen

/-! ## GetFlavour (lines 223-242) -/

/-- Reduction of an integer to the signed 32-bit range (two's complement). -/
def wrap32 (x : Int) : Int := (x + 2147483648) % 4294967296 - 2147483648

/-- The function `TMath::Abs(Int_t d)`, that is `(d >= 0) ? d : -d` on 32-bit integers. -/
def abs32 (d : Int) : Int := if d ≥ 0 then d else wrap32 (-d)

/-- The method `AliGenEvtGen_dev::GetFlavour`; `/` and `%` are the truncating C++ operators. -/
def GetFlavour (pdgCode : Int) : Int :=
  let pdg := abs32 pdgCode
  let pdg := if pdg > 100000 then Int.tmod pdg 100000 else pdg
  let pdg := if pdg > 10000 then Int.tmod pdg 10000 else pdg
  let pdg := if pdg > 10 then Int.tdiv pdg 100 else pdg
  let pdg := if pdg > 10 then Int.tdiv pdg 10 else pdg
  pdg

/-! ## Data model -/

/-- The arithmetic on `Double_t` (type `D`) and `Float_t` (type `F`) used by `Generate`. -/
structure FloatOps (D F : Type) where
  /-- Addition of two `Double_t` values. -/
  addD : D → D → D
  /-- Conversion `Double_t → Float_t` (assignment to a `Float_t`). -/
  toFloat : D → F
  /-- Promotion `Float_t → Double_t` (a `Float_t` operand of a `Double_t` addition). -/
  toDouble : F → D
  /-- The `Float_t` value 0 (`std::array<Float_t,3> x = {0}`). -/
  zeroF : F
  /-- The literal `1.` converted to `Float_t` (the weight argument of `PushTrack`). -/
  oneF : F

/-- The fields of a `TParticle` that `Generate` reads or writes. -/
structure TParticle (D : Type) where
  pdgCode : Int
  statusCode : Int
  firstMother : Int
  nDaughters : Int
  kDoneBit : Bool
  kTransportBit : Bool
  px : D
  py : D
  pz : D
  energy : D
  vx : D
  vy : D
  vz : D
  t : D

/-- A `TLorentzVector` as filled by `SetPxPyPzE`. -/
structure LorentzVector (D : Type) where
  px : D
  py : D
  pz : D
  e : D
  deriving DecidableEq

/-- The values of `TMCProcess` that matter here. -/
inductive TMCProcess
  | kPPrimary
  | kPDecay
  deriving DecidableEq, Repr

/-- The values of the species switch `fSwitchOff`. -/
inductive SwitchOff
  | kAllPart
  | kBeautyPart
  | kCharmPart
  deriving DecidableEq, Repr

/-- The value of `fSwitchOff` set by the default constructor (line 43). -/
def defaultSwitchOff : SwitchOff := SwitchOff.kBeautyPart

/-- The arguments of one `PushTrack` call (the output argument `nt` apart). -/
structure PushArgs (F : Type) where
  done : Int
  parent : Int
  pdg : Int
  pmom : F × F × F
  vpos : F × F × F
  polar : F × F × F
  tof : F
  mech : TMCProcess
  weight : F
  is : Int
  deriving DecidableEq

/-- The behaviour of the collaborators, over their private state `σ`. -/
structure Collaborators (σ D F : Type) where
  /-- The call `fStack->GetNprimary()`. -/
  getNprimary : σ → Int
  /-- The calls `fDecayer->Decay(pdg, &mom)` and `fDecayer->ImportParticles(particles)`:
  the new state, the returned count `np`, and the contents of `particles` by index. -/
  decay : σ → Int → LorentzVector D → σ × Int × (Nat → TParticle D)
  /-- The call `PushTrack`: the new state and the value left in `nt`. -/
  pushTrack : σ → PushArgs F → σ × Int
  /-- The call `KeepTrack(nt)`. -/
  keepTrack : σ → Int → σ
  /-- The call `SetHighWaterMark(nt)`. -/
  setHighWaterMark : σ → Int → σ

/-- The calls and warnings issued by `Generate`.  The candidate index `iTrack` and the
local index `i` are recorded with the call they belong to. -/
inductive Event (D F : Type)
  /-- The lookup `fStack->Particle(iTrack)` (line 114). -/
  | fetch (iTrack : Nat)
  /-- The warning of line 133. -/
  | warnDecayed (iTrack : Nat) (pdg : Int)
  /-- One pass of the body of the retry loop (lines 146-147) with the count returned. -/
  | decay (iTrack : Nat) (pdg : Int) (mom : LorentzVector D) (np : Int)
  /-- The call of line 206 with the value left in `nt`. -/
  | push (iTrack : Nat) (i : Nat) (args : PushArgs F) (nt : Int)
  /-- The warning of line 208. -/
  | warnPush (i : Nat) (kf : Int)
  /-- The call of line 213. -/
  | keepTrack (nt : Int)
  /-- The call of line 214. -/
  | setHighWaterMark (nt : Int)
  deriving DecidableEq

/-- Why a run of the model stopped early. -/
inductive Halt
  | outOfFuel
  | outOfBounds
  deriving DecidableEq, Repr

/-- The result of the loop over the decay products: collaborator state, the events
issued, whether the loop stopped early, and the contents of `pParent` at that point. -/
structure Out (σ D F : Type) where
  ext : σ
  events : List (Event D F)
  halt : Option Halt
  pParent : List Int

/-- The `PushTrack` calls of an event list, in order: candidate index, local index,
arguments, and the value left in `nt`. -/
def pushesOf {D F : Type} : List (Event D F) → List (Nat × Nat × PushArgs F × Int)
  | [] => []
  | Event.push iTrack i args nt :: es => (iTrack, i, args, nt) :: pushesOf es
  | _ :: es => pushesOf es

/-- The `PushTrack` calls of an event list, in order, reduced to the local index, the
parent passed, and the value left in `nt`. -/
def parentsOf {D F : Type} (es : List (Event D F)) : List (Nat × Int × Int) :=
  (pushesOf es).map (fun p => (p.2.1, p.2.2.1.parent, p.2.2.2))

/-- The number of engine invocations recorded in an event list for the candidate
`iTrack`. -/
def decayCount {D F : Type} (iTrack : Nat) : List (Event D F) → Nat
  | [] => 0
  | Event.decay t _ _ _ :: es => (if t = iTrack then 1 else 0) + decayCount iTrack es
  | _ :: es => decayCount iTrack es

/-- The state of a pass of `Generate`. -/
structure State (σ D F : Type) where
  ext : σ
  parts : Nat → TParticle D
  log : List (Event D F)
  halt : Option Halt

/-- The result of the retry loop: collaborator state, the events issued, and the
accepted answer (count `np` and contents of `particles`) unless the budget ran out. -/
structure DecayOut (σ D F : Type) where
  ext : σ
  events : List (Event D F)
  result : Option (Int × (Nat → TParticle D))

/-! ## Generate (lines 91-220) -/

section Generate

variable {σ D F : Type}

/-- Lines 144-148: `do { Decay; np = ImportParticles } while (np < 0)`, with a budget
of `fuel` passes through the body. -/
def decayLoop (env : Collaborators σ D F) (iTrack : Nat) (pdg : Int) (mom : LorentzVector D) :
    Nat → σ → DecayOut σ D F
  | 0, ext => ⟨ext, [], none⟩
  | fuel + 1, ext =>
    let r := env.decay ext pdg mom
    let np := r.2.1
    if np < 0 then
      let rest := decayLoop env iTrack pdg mom fuel r.1
      ⟨rest.ext, Event.decay iTrack pdg mom np :: rest.events, rest.result⟩
    else
      ⟨r.1, [Event.decay iTrack pdg mom np], some (np, r.2.2)⟩

/-- The collaborator state after `k` passes through the body of the retry loop. -/
def stateAfterDecays (env : Collaborators σ D F) (pdg : Int) (mom : LorentzVector D) :
    Nat → σ → σ
  | 0, ext => ext
  | k + 1, ext => stateAfterDecays env pdg mom k (env.decay ext pdg mom).1

/-- What the engine returns on its invocation number `k + 1` of the retry loop started
in the state `ext`. -/
def decayAnswer (env : Collaborators σ D F) (pdg : Int) (mom : LorentzVector D)
    (k : Nat) (ext : σ) : σ × Int × (Nat → TParticle D) :=
  env.decay (stateAfterDecays env pdg mom k ext) pdg mom

/-- Lines 163-170: the loop over the products that sets `trackIt[i] = 1` when the
status code is 1; `n` iterations starting at index `i`. -/
def trackItLoop (particles : Nat → TParticle D) : Nat → Nat → List Int → List Int
  | 0, _, trackIt => trackIt
  | n + 1, i, trackIt =>
    let ks := (particles i).statusCode
    trackItLoop particles n (i + 1) (if ks = 1 then trackIt.set i 1 else trackIt)

/-- Lines 152-172: `trackIt` is created with `np` zeros and filled when `np > 1`. -/
def mkTrackIt (np : Int) (particles : Nat → TParticle D) : List Int :=
  let trackIt := List.replicate np.toNat (0 : Int)
  if np > 1 then trackItLoop particles (np - 1).toNat 1 trackIt else trackIt

/-- Lines 153-158: `pParent` is created with `np` entries, all -1. -/
def mkPParent (np : Int) : List Int := List.replicate np.toNat (-1 : Int)

/-- Line 186: `jpa = iparticle->GetFirstMother() - 1`, a subtraction of `Int_t` values,
which wraps to `2^31 - 1` when the first-mother index is `-2^31`. -/
def jpaOf (iparticle : TParticle D) : Int := wrap32 (iparticle.firstMother - 1)

/-- Line 187: `(jpa > 0) ? pParent[jpa] : iTrack`; `none` is a read outside the vector. -/
def resolveParent (iTrack : Nat) (pParent : List Int) (jpa : Int) : Option Int :=
  if jpa > 0 then pParent[jpa.toNat]? else some (iTrack : Int)

/-- Lines 174-177: `origin0`, the `Float_t` copy of the candidate's production vertex. -/
def origin0 (ops : FloatOps D F) (part : TParticle D) : F × F × F :=
  (ops.toFloat part.vx, ops.toFloat part.vy, ops.toFloat part.vz)

/-- Lines 184-206: the arguments of the `PushTrack` call for the product `iparticle`. -/
def pushArgs (ops : FloatOps D F) (part : TParticle D) (iparticle : TParticle D)
    (done : Int) (iparent : Int) : PushArgs F :=
  let o := origin0 ops part
  let kf := iparticle.pdgCode
  let ksc := iparticle.statusCode
  let polar : F × F × F := (ops.zeroF, ops.zeroF, ops.zeroF)
  let och : F × F × F :=
    (ops.toFloat (ops.addD (ops.toDouble o.1) iparticle.vx),
     ops.toFloat (ops.addD (ops.toDouble o.2.1) iparticle.vy),
     ops.toFloat (ops.addD (ops.toDouble o.2.2) iparticle.vz))
  let pc : F × F × F :=
    (ops.toFloat iparticle.px, ops.toFloat iparticle.py, ops.toFloat iparticle.pz)
  let tof := ops.toFloat (ops.addD part.t iparticle.t)
  ⟨done, iparent, kf, pc, och, polar, tof, TMCProcess.kPDecay, ops.oneF, ksc⟩

/-- Lines 182-215: the loop that puts the decay products on the stack; `n` iterations
starting at local index `i`. -/
def pushLoop (env : Collaborators σ D F) (ops : FloatOps D F) (iTrack : Nat)
    (part : TParticle D) (particles : Nat → TParticle D) (trackIt : List Int) :
    Nat → Nat → List Int → σ → Out σ D F
  | 0, _, pParent, ext => ⟨ext, [], none, pParent⟩
  | n + 1, i, pParent, ext =>
    let iparticle := particles i
    let kf := iparticle.pdgCode
    let jpa := jpaOf iparticle
    match resolveParent iTrack pParent jpa with
    | none => ⟨ext, [], some Halt.outOfBounds, pParent⟩
    | some iparent =>
      let args := pushArgs ops part iparticle (trackIt.getD i 0) iparent
      let r := env.pushTrack ext args
      let nt := r.2
      if nt < 0 then
        let rest := pushLoop env ops iTrack part particles trackIt n (i + 1) pParent r.1
        ⟨rest.ext, Event.push iTrack i args nt :: Event.warnPush i kf :: rest.events, rest.halt,
          rest.pParent⟩
      else
        let rest := pushLoop env ops iTrack part particles trackIt n (i + 1)
          (pParent.set i nt) (env.setHighWaterMark (env.keepTrack r.1 nt) nt)
        ⟨rest.ext, Event.push iTrack i args nt :: Event.keepTrack nt ::
          Event.setHighWaterMark nt :: rest.events, rest.halt, rest.pParent⟩

/-- Lines 152-215: what `Generate` does with an accepted engine answer of count `np`
and contents `particles` for the candidate `part` at stack index `iTrack`. -/
def pushProducts (env : Collaborators σ D F) (ops : FloatOps D F) (iTrack : Nat)
    (part : TParticle D) (np : Int) (particles : Nat → TParticle D) (ext : σ) : Out σ D F :=
  pushLoop env ops iTrack part particles (mkTrackIt np particles) (np - 1).toNat 1
    (mkPParent np) ext

/-- Lines 120-129: whether the species switch lets a particle of flavour `flav` through. -/
def passesSwitch (sw : SwitchOff) (flav : Int) : Bool :=
  match sw with
  | SwitchOff.kAllPart => true
  | SwitchOff.kBeautyPart => decide (flav = 5)
  | SwitchOff.kCharmPart => decide (flav = 4)

/-- Lines 120-135: the particle passes the species switch and the check of line 132
(status code 1 and no daughters), so that the body of the loop goes on to decay it. -/
def selected (sw : SwitchOff) (part : TParticle D) : Prop :=
  passesSwitch sw (GetFlavour part.pdgCode) = true ∧ part.statusCode = 1 ∧
    ¬ part.nDaughters > 0

instance (sw : SwitchOff) (part : TParticle D) : Decidable (selected sw part) := by
  unfold selected
  infer_instance

/-- The four-momentum handed to the engine for the particle `part` (lines 141-142). -/
def momentumOf (part : TParticle D) : LorentzVector D :=
  ⟨part.px, part.py, part.pz, part.energy⟩

/-- Lines 137-139: the record after `SetStatusCode(11)`, `SetBit(kDoneBit)`,
`ResetBit(kTransportBit)`. -/
def markDecayed (part : TParticle D) : TParticle D :=
  { part with statusCode := 11, kDoneBit := true, kTransportBit := false }

/-- What an event `e` issued while the candidate `c` with record `part` is processed can
be, `new` being the events issued in the pass: the lookup of the record; the warning of
line 133 for a particle that is not selected; and for a selected particle an engine
invocation, or an event of the loop over the products of an answer the engine gave for
this candidate. -/
def StepEvent (env : Collaborators σ D F) (ops : FloatOps D F) (sw : SwitchOff)
    (c : Nat) (part : TParticle D) (new : List (Event D F)) (e : Event D F) : Prop :=
  e = Event.fetch c ∨
  (¬ selected sw part ∧ e = Event.warnDecayed c part.pdgCode) ∨
  (selected sw part ∧
    ((∃ np, e = Event.decay c part.pdgCode (momentumOf part) np) ∨
     (∃ (np : Int) (particles : Nat → TParticle D) (ext0 ext1 : σ),
        0 ≤ np ∧ Event.decay c part.pdgCode (momentumOf part) np ∈ new ∧
        env.decay ext0 part.pdgCode (momentumOf part) = (ext1, np, particles) ∧
        e ∈ (pushProducts env ops c (markDecayed part) np particles ext1).events)))

/-- Lines 114-217: the body of the loop over the stack for the index `iTrack`. -/
def processTrack (env : Collaborators σ D F) (ops : FloatOps D F) (sw : SwitchOff)
    (fuel : Nat) (iTrack : Nat) (s : State σ D F) : State σ D F :=
  let part := s.parts iTrack
  let pdg := part.pdgCode
  let flav := GetFlavour pdg
  let log := s.log ++ [Event.fetch iTrack]
  if passesSwitch sw flav = false then
    ⟨s.ext, s.parts, log, s.halt⟩
  else if part.statusCode ≠ 1 ∨ part.nDaughters > 0 then
    ⟨s.ext, s.parts, log ++ (if abs32 pdg > 10 then [Event.warnDecayed iTrack pdg] else []),
      s.halt⟩
  else
    let part := markDecayed part
    let parts := Function.update s.parts iTrack part
    let mom : LorentzVector D := momentumOf part
    let d := decayLoop env iTrack part.pdgCode mom fuel s.ext
    match d.result with
    | none => ⟨d.ext, parts, log ++ d.events, some Halt.outOfFuel⟩
    | some (np, particles) =>
      let r := pushProducts env ops iTrack part np particles d.ext
      ⟨r.ext, parts, log ++ d.events ++ r.events, r.halt⟩

/-- Line 113: the loop `for (iTrack = ...; iTrack < nPrimsPythia; ++iTrack)`, with `n`
iterations left; a run that stopped early stays where it stopped. -/
def trackLoop (env : Collaborators σ D F) (ops : FloatOps D F) (sw : SwitchOff)
    (fuel : Nat) : Nat → Nat → State σ D F → State σ D F
  | 0, _, s => s
  | n + 1, iTrack, s =>
    match s.halt with
    | some _ => s
    | none => trackLoop env ops sw fuel n (iTrack + 1) (processTrack env ops sw fuel iTrack s)

/-- The method `AliGenEvtGen_dev::Generate` on a stack that was found (the return of
lines 102-105 is the case without a stack, in which nothing is read or written):
`ext` is the state of the collaborators, `parts` the particle records by stack index,
`fuel` the budget of each retry loop. -/
def Generate (env : Collaborators σ D F) (ops : FloatOps D F) (sw : SwitchOff)
    (fuel : Nat) (ext : σ) (parts : Nat → TParticle D) : State σ D F :=
  let nPrimsPythia := env.getNprimary ext
  trackLoop env ops sw fuel nPrimsPythia.toNat 0 ⟨ext, parts, [], none⟩

end Generate

/-! ## Concrete collaborators used to evaluate the model -/

/-- Integer scalars: both scalar types are the integers, the conversions change
nothing, addition is integer addition. -/
def intOps : FloatOps Int Int := ⟨fun a b => a + b, fun a => a, fun a => a, 0, 1⟩

/-- A candidate of type 511 with status 1 and no daughters, produced at
(1000, 2000, 3000) at time 5000. -/
def sampleCandidate : TParticle Int :=
  ⟨511, 1, -1, 0, false, true, 1, 2, 3, 4, 1000, 2000, 3000, 5000⟩

/-- The same particle with status code 2 (decayed upstream). -/
def sampleDecayed : TParticle Int :=
  ⟨511, 2, -1, 0, false, true, 1, 2, 3, 4, 1000, 2000, 3000, 5000⟩

/-- A decay product with first-mother field `fm`, status `st`, type `100 + off` and
offsets `(off, 2 off, 3 off)` in space and `off` in time. -/
def sampleProduct (fm st off : Int) : TParticle Int :=
  ⟨100 + off, st, fm, 0, false, false, 1, 2, 3, 4, off, 2 * off, 3 * off, off⟩

/-- A list of products with first-mother fields `[_, 0, 0, 2]`. -/
def answer002 : Nat → TParticle Int
  | 1 => sampleProduct 0 1 10
  | 2 => sampleProduct 0 2 20
  | 3 => sampleProduct 2 1 30
  | _ => sampleProduct 0 0 0

/-- A list of products with first-mother fields `[_, 1, 1, 3]`. -/
def answer113 : Nat → TParticle Int
  | 1 => sampleProduct 1 1 10
  | 2 => sampleProduct 1 2 20
  | 3 => sampleProduct 3 1 30
  | _ => sampleProduct 0 0 0

/-- A list of two products with first-mother fields `[_, 0, 0]` and status codes
`[_, 2, 1]`. -/
def answer00 : Nat → TParticle Int
  | 1 => sampleProduct 0 2 10
  | 2 => sampleProduct 0 1 20
  | _ => sampleProduct 0 0 0

/-- The state of the sample collaborators: tracks on the stack, `PushTrack` calls and
`Decay` calls made so far. -/
structure SampleState where
  tracks : Nat
  pushCalls : Nat
  decayCalls : Nat
  deriving DecidableEq

/-- Sample collaborators.  The engine reports -1 on its first `retries` invocations and
then the count `np` with the products `answer`.  The stack numbers its tracks from 0: a
push returns the number of tracks so far and adds one track, except that push number
`bad` (counted from 1) fails with -1. -/
def sampleEnv (retries : Nat) (np : Int) (answer : Nat → TParticle Int) (bad : Nat) :
    Collaborators SampleState Int Int where
  getNprimary := fun s => s.tracks
  decay := fun s _ _ =>
    if s.decayCalls < retries then (⟨s.tracks, s.pushCalls, s.decayCalls + 1⟩, -1, answer)
    else (⟨s.tracks, s.pushCalls, s.decayCalls + 1⟩, np, answer)
  pushTrack := fun s _ =>
    if s.pushCalls + 1 = bad then (⟨s.tracks, s.pushCalls + 1, s.decayCalls⟩, -1)
    else (⟨s.tracks + 1, s.pushCalls + 1, s.decayCalls⟩, s.tracks)
  keepTrack := fun s _ => s
  setHighWaterMark := fun s _ => s

/-- A list of one product whose first-mother index is the least `Int_t` value. -/
def answerMin : Nat → TParticle Int
  | _ => sampleProduct (-2147483648) 1 10

/-! ## Binary floating point on integer values -/

/-- The spacing of the `Float_t` values around the magnitude `a`: the least power of two
`q`, from `q` on, with `a / q < 2^24` (the significand of a `Float_t` has 24 bits). -/
def floatSpacing : Nat → Nat → Nat → Nat
  | 0, _, q => q
  | fuel + 1, a, q => if a / q < 16777216 then q else floatSpacing fuel a (2 * q)

/-- The conversion `Double_t → Float_t` on an integer value below `2^128` in magnitude:
the nearest multiple of the spacing, a tie going to the even significand. -/
def roundToFloat (x : Int) : Int :=
  let a := x.natAbs
  let q := floatSpacing 128 a 1
  let lo := a / q
  let r := a % q
  let m := if 2 * r > q ∨ (2 * r = q ∧ lo % 2 = 1) then lo + 1 else lo
  if x < 0 then -((m * q : Nat) : Int) else ((m * q : Nat) : Int)

/-- The arithmetic of the source on integer values of magnitude at most `2^53`, where
`Double_t` holds every integer and adds exactly: `Float_t` values are the integers with a
24-bit significand, the promotion is exact, the conversion rounds. -/
def float32Ops : FloatOps Int Int := ⟨fun a b => a + b, roundToFloat, fun a => a, 0, 1⟩

/-- A candidate of type 511 with status 1 and no daughters, produced at
`x = 16777217 = 2^24 + 1`, a value that `Float_t` does not hold. -/
def wideCandidate : TParticle Int :=
  ⟨511, 1, -1, 0, false, true, 1, 2, 3, 4, 16777217, 0, 0, 0⟩

/-- A decay product of type 211 with first-mother field `fm`, status `st` and position
offset `(1, 0, 0)`. -/
def unitProduct (fm st : Int) : TParticle Int :=
  ⟨211, st, fm, 0, false, false, 1, 2, 3, 4, 1, 0, 0, 0⟩

/-- A list of two such products with first-mother fields `[_, 0, 0]` and status codes
`[_, 2, 1]`. -/
def answerUnit : Nat → TParticle Int
  | 1 => unitProduct 0 2
  | 2 => unitProduct 0 1
  | _ => unitProduct 0 0

/-! ## SetUserDecayTable (lines 245-265) -/

/-- The two members written by `SetUserDecayTable`. -/
structure DecayTableConfig where
  fUserDecay : Bool
  fUserDecayTablePath : String
  deriving DecidableEq

/-- The method `AliGenEvtGen_dev::SetUserDecayTable`.  The argument `path` is `none` for
a null pointer.  The parameter `accessPathName` is `gSystem->AccessPathName`, which
returns true when the path can not be accessed.  The result is the value returned and
the two members after the call. -/
def SetUserDecayTable (accessPathName : String → Bool) (path : Option String)
    (cfg : DecayTableConfig) : Bool × DecayTableConfig :=
  match path with
  | none => (true, ⟨false, ""⟩)
  | some p =>
    if p.length = 0 then (true, ⟨false, ""⟩)
    else if accessPathName p then (false, cfg)
    else (true, ⟨true, p⟩)

/-- A file system on which the path `/data/USER.DEC` can be accessed and no other. -/
def sampleAccessPathName (p : String) : Bool := decide (p ≠ "/data/USER.DEC")

/-! ## Readings of the event log -/

/-- The stack indices looked up with `fStack->Particle`, in order. -/
def fetchesOf {D F : Type} (es : List (Event D F)) : List Nat :=
  es.filterMap (fun e => match e with
    | Event.fetch iTrack => some iTrack
    | _ => none)

/-- The arguments of the `KeepTrack` calls, in order. -/
def keepsOf {D F : Type} (es : List (Event D F)) : List Int :=
  es.filterMap (fun e => match e with
    | Event.keepTrack nt => some nt
    | _ => none)

/-- The arguments of the `SetHighWaterMark` calls, in order. -/
def highWaterMarksOf {D F : Type} (es : List (Event D F)) : List Int :=
  es.filterMap (fun e => match e with
    | Event.setHighWaterMark nt => some nt
    | _ => none)

/-- The values left in `nt` by the `PushTrack` calls that succeeded (`nt` not
negative), in order. -/
def pushedIndicesOf {D F : Type} (es : List (Event D F)) : List Int :=
  es.filterMap (fun e => match e with
    | Event.push _ _ _ nt => if nt < 0 then none else some nt
    | _ => none)

/-- The local indices of the `PushTrack` calls, in order. -/
def localIndicesOf {D F : Type} (es : List (Event D F)) : List Nat :=
  es.filterMap (fun e => match e with
    | Event.push _ i _ _ => some i
    | _ => none)

/-! ## The loop over the decay products -/

section PushLoop

variable {σ D F : Type}

/-- On the `Int_t` range, apart from its least value, `jpa` is the first-mother index
minus 1. -/
theorem jpaOf_eq (iparticle : TParticle D) (h1 : -2147483648 < iparticle.firstMother)
    (h2 : iparticle.firstMother < 2147483648) :
    jpaOf iparticle = iparticle.firstMother - 1 := by
  unfold jpaOf wrap32
  omega

/-- At the least `Int_t` value of the first-mother index the subtraction wraps: `jpa` is
`2^31 - 1`. -/
theorem jpaOf_least (iparticle : TParticle D) (h : iparticle.firstMother = -2147483648) :
    jpaOf iparticle = 2147483647 := by
  unfold jpaOf wrap32
  rw [h]
  decide

/-- With the first-mother index `-2^31` the loop reads `pParent[2^31 - 1]`, outside the
vector: the model stops at that product and pushes nothing. -/
theorem pushProducts_least_first_mother :
    jpaOf (answerMin 1) = 2147483647 ∧
    (pushProducts (sampleEnv 0 2 answerMin 0) intOps 0 sampleCandidate 2 answerMin
      ⟨1, 0, 0⟩).halt = some Halt.outOfBounds ∧
    (pushProducts (sampleEnv 0 2 answerMin 0) intOps 0 sampleCandidate 2 answerMin
      ⟨1, 0, 0⟩).events = [] := by
  refine ⟨?_, ?_, ?_⟩
  · decide
  · decide
  · decide

theorem pushLoop_zero (env : Collaborators σ D F) (ops : FloatOps D F) (iTrack : Nat)
    (part : TParticle D) (particles : Nat → TParticle D) (trackIt : List Int)
    (i : Nat) (pp : List Int) (ext : σ) :
    pushLoop env ops iTrack part particles trackIt 0 i pp ext = ⟨ext, [], none, pp⟩ := rfl

/-- One iteration of the loop whose parent lookup leaves the vector. -/
theorem pushLoop_succ_none (env : Collaborators σ D F) (ops : FloatOps D F) (iTrack : Nat)
    (part : TParticle D) (particles : Nat → TParticle D) (trackIt : List Int)
    (n i : Nat) (pp : List Int) (ext : σ)
    (h : resolveParent iTrack pp (jpaOf (particles i)) = none) :
    pushLoop env ops iTrack part particles trackIt (n + 1) i pp ext =
      ⟨ext, [], some Halt.outOfBounds, pp⟩ := by
  simp only [pushLoop, h]

/-- One iteration of the loop whose push fails. -/
theorem pushLoop_succ_fail (env : Collaborators σ D F) (ops : FloatOps D F) (iTrack : Nat)
    (part : TParticle D) (particles : Nat → TParticle D) (trackIt : List Int)
    (n i : Nat) (pp : List Int) (ext : σ) (iparent : Int)
    (h : resolveParent iTrack pp (jpaOf (particles i)) = some iparent)
    (hnt : (env.pushTrack ext
      (pushArgs ops part (particles i) (trackIt.getD i 0) iparent)).2 < 0) :
    pushLoop env ops iTrack part particles trackIt (n + 1) i pp ext =
      (let args := pushArgs ops part (particles i) (trackIt.getD i 0) iparent
       let r := env.pushTrack ext args
       let rest := pushLoop env ops iTrack part particles trackIt n (i + 1) pp r.1
       ⟨rest.ext, Event.push iTrack i args r.2 :: Event.warnPush i (particles i).pdgCode ::
          rest.events, rest.halt, rest.pParent⟩) := by
  simp only [pushLoop, h, hnt, if_true]

/-- One iteration of the loop whose push succeeds. -/
theorem pushLoop_succ_ok (env : Collaborators σ D F) (ops : FloatOps D F) (iTrack : Nat)
    (part : TParticle D) (particles : Nat → TParticle D) (trackIt : List Int)
    (n i : Nat) (pp : List Int) (ext : σ) (iparent : Int)
    (h : resolveParent iTrack pp (jpaOf (particles i)) = some iparent)
    (hnt : ¬ (env.pushTrack ext
      (pushArgs ops part (particles i) (trackIt.getD i 0) iparent)).2 < 0) :
    pushLoop env ops iTrack part particles trackIt (n + 1) i pp ext =
      (let args := pushArgs ops part (particles i) (trackIt.getD i 0) iparent
       let r := env.pushTrack ext args
       let rest := pushLoop env ops iTrack part particles trackIt n (i + 1)
         (pp.set i r.2) (env.setHighWaterMark (env.keepTrack r.1 r.2) r.2)
       ⟨rest.ext, Event.push iTrack i args r.2 :: Event.keepTrack r.2 ::
          Event.setHighWaterMark r.2 :: rest.events, rest.halt, rest.pParent⟩) := by
  simp only [pushLoop, h, hnt, if_false]

/-- Every push issued by the loop belongs to the candidate, has a local index in the
range of the loop, and carries the arguments computed from that product. -/
theorem pushLoop_push_mem (env : Collaborators σ D F) (ops : FloatOps D F) (iTrack : Nat)
    (part : TParticle D) (particles : Nat → TParticle D) (trackIt : List Int)
    (n : Nat) : ∀ (i : Nat) (pp : List Int) (ext : σ) (t k : Nat) (args : PushArgs F) (nt : Int),
    Event.push t k args nt ∈
      (pushLoop env ops iTrack part particles trackIt n i pp ext).events →
    t = iTrack ∧ i ≤ k ∧ k < i + n ∧
      args = pushArgs ops part (particles k) (trackIt.getD k 0) args.parent := by
  induction n with
  | zero =>
    intro i pp ext t k args nt h
    simp [pushLoop_zero] at h
  | succ n ih =>
    intro i pp ext t k args nt h
    cases hres : resolveParent iTrack pp (jpaOf (particles i)) with
    | none =>
      rw [pushLoop_succ_none _ _ _ _ _ _ _ _ _ _ hres] at h
      simp at h
    | some iparent =>
      by_cases hnt : (env.pushTrack ext
          (pushArgs ops part (particles i) (trackIt.getD i 0) iparent)).2 < 0
      · rw [pushLoop_succ_fail _ _ _ _ _ _ _ _ _ _ _ hres hnt] at h
        simp only [List.mem_cons, Event.push.injEq, reduceCtorEq, false_or] at h
        rcases h with ⟨rfl, rfl, rfl, rfl⟩ | h
        · refine ⟨rfl, le_refl _, by omega, ?_⟩
          simp [pushArgs]
        · obtain ⟨h1, h2, h3, h4⟩ := ih _ _ _ _ _ _ _ h
          exact ⟨h1, by omega, by omega, h4⟩
      · rw [pushLoop_succ_ok _ _ _ _ _ _ _ _ _ _ _ hres hnt] at h
        simp only [List.mem_cons, Event.push.injEq, reduceCtorEq, false_or] at h
        rcases h with ⟨rfl, rfl, rfl, rfl⟩ | h
        · refine ⟨rfl, le_refl _, by omega, ?_⟩
          simp [pushArgs]
        · obtain ⟨h1, h2, h3, h4⟩ := ih _ _ _ _ _ _ _ h
          exact ⟨h1, by omega, by omega, h4⟩

/-- Where the parent of a push comes from.  For a push of the product `k` issued by the
loop started at local index `i` with the vector `pp`, writing `jpa` for the
first-mother index of `k` minus 1: the parent is the candidate when `jpa ≤ 0`; it is
the entry `pp[jpa]` when `jpa` is not a product pushed by this loop before `k`; and when
`jpa` is such a product, it is the value the push of `jpa` returned if that push
succeeded, and the entry `pp[jpa]` if it failed. -/
theorem pushLoop_parent (env : Collaborators σ D F) (ops : FloatOps D F) (iTrack : Nat)
    (part : TParticle D) (particles : Nat → TParticle D) (trackIt : List Int)
    (n : Nat) : ∀ (i : Nat) (pp : List Int) (ext : σ) (t k : Nat) (args : PushArgs F) (nt : Int),
    i + n ≤ pp.length →
    Event.push t k args nt ∈
      (pushLoop env ops iTrack part particles trackIt n i pp ext).events →
    (jpaOf (particles k) ≤ 0 → args.parent = iTrack) ∧
    (0 < jpaOf (particles k) →
      ((jpaOf (particles k)).toNat < i ∨ k ≤ (jpaOf (particles k)).toNat) →
      pp[(jpaOf (particles k)).toNat]? = some args.parent) ∧
    (0 < jpaOf (particles k) → i ≤ (jpaOf (particles k)).toNat →
      (jpaOf (particles k)).toNat < k →
      ∀ (t2 : Nat) (aj : PushArgs F) (ntj : Int),
        Event.push t2 (jpaOf (particles k)).toNat aj ntj ∈
          (pushLoop env ops iTrack part particles trackIt n i pp ext).events →
        (0 ≤ ntj → args.parent = ntj) ∧
        (ntj < 0 → pp[(jpaOf (particles k)).toNat]? = some args.parent)) := by
  induction n with
  | zero =>
    intro i pp ext t k args nt _ h
    simp [pushLoop_zero] at h
  | succ n ih =>
    intro i pp ext t k args nt hlen h
    cases hres : resolveParent iTrack pp (jpaOf (particles i)) with
    | none =>
      rw [pushLoop_succ_none _ _ _ _ _ _ _ _ _ _ hres] at h
      simp at h
    | some iparent =>
      by_cases hnt : (env.pushTrack ext
          (pushArgs ops part (particles i) (trackIt.getD i 0) iparent)).2 < 0
      · rw [pushLoop_succ_fail _ _ _ _ _ _ _ _ _ _ _ hres hnt]
        rw [pushLoop_succ_fail _ _ _ _ _ _ _ _ _ _ _ hres hnt] at h
        simp only [List.mem_cons, Event.push.injEq, reduceCtorEq, false_or] at h ⊢
        rcases h with ⟨rfl, rfl, rfl, rfl⟩ | h
        · refine ⟨?_, ?_, ?_⟩
          · intro hj
            have : ¬ (0 < jpaOf (particles k)) := by omega
            simpa [resolveParent, this, pushArgs] using hres.symm
          · intro hj _
            simpa [resolveParent, hj, pushArgs] using hres
          · intro _ h1 h2
            omega
        · have hk := pushLoop_push_mem _ _ _ _ _ _ _ _ _ _ _ _ _ _ h
          obtain ⟨ih1, ih2, ih3⟩ := ih (i + 1) pp _ t k args nt (by omega) h
          refine ⟨ih1, ?_, ?_⟩
          · intro hj hcase
            exact ih2 hj (by omega)
          · intro hj h1 h2 t2 aj ntj hmem
            rcases hmem with ⟨_, hji, rfl, rfl⟩ | hmem
            · refine ⟨fun h0 => absurd hnt (by omega), fun _ => ?_⟩
              exact ih2 hj (by omega)
            · have hk2 := pushLoop_push_mem _ _ _ _ _ _ _ _ _ _ _ _ _ _ hmem
              exact ih3 hj (by omega) h2 t2 aj ntj hmem
      · rw [pushLoop_succ_ok _ _ _ _ _ _ _ _ _ _ _ hres hnt]
        rw [pushLoop_succ_ok _ _ _ _ _ _ _ _ _ _ _ hres hnt] at h
        simp only [List.mem_cons, Event.push.injEq, reduceCtorEq, false_or] at h ⊢
        rcases h with ⟨rfl, rfl, rfl, rfl⟩ | h
        · refine ⟨?_, ?_, ?_⟩
          · intro hj
            have : ¬ (0 < jpaOf (particles k)) := by omega
            simpa [resolveParent, this, pushArgs] using hres.symm
          · intro hj _
            simpa [resolveParent, hj, pushArgs] using hres
          · intro _ h1 h2
            omega
        · have hk := pushLoop_push_mem _ _ _ _ _ _ _ _ _ _ _ _ _ _ h
          obtain ⟨ih1, ih2, ih3⟩ := ih (i + 1) (pp.set i _) _ t k args nt
            (by rw [List.length_set]; omega) h
          refine ⟨ih1, ?_, ?_⟩
          · intro hj hcase
            have hne : i ≠ (jpaOf (particles k)).toNat := by omega
            have := ih2 hj (by omega)
            rwa [List.getElem?_set_ne hne] at this
          · intro hj h1 h2 t2 aj ntj hmem
            rcases hmem with ⟨_, hji, rfl, rfl⟩ | hmem
            · refine ⟨fun _ => ?_, fun h0 => absurd h0 hnt⟩
              have := ih2 hj (by omega)
              rw [hji, List.getElem?_set_self (by omega)] at this
              exact (Option.some.inj this).symm
            · have hk2 := pushLoop_push_mem _ _ _ _ _ _ _ _ _ _ _ _ _ _ hmem
              have hne : i ≠ (jpaOf (particles k)).toNat := by omega
              obtain ⟨r1, r2⟩ := ih3 hj (by omega) h2 t2 aj ntj hmem
              refine ⟨r1, fun h0 => ?_⟩
              have := r2 h0
              rwa [List.getElem?_set_ne hne] at this

/-- A loop that was not stopped has pushed every product of its range. -/
theorem pushLoop_push_exists (env : Collaborators σ D F) (ops : FloatOps D F) (iTrack : Nat)
    (part : TParticle D) (particles : Nat → TParticle D) (trackIt : List Int)
    (n : Nat) : ∀ (i : Nat) (pp : List Int) (ext : σ),
    (pushLoop env ops iTrack part particles trackIt n i pp ext).halt = none →
    ∀ k : Nat, i ≤ k → k < i + n → ∃ (args : PushArgs F) (nt : Int),
      Event.push iTrack k args nt ∈
        (pushLoop env ops iTrack part particles trackIt n i pp ext).events := by
  induction n with
  | zero =>
    intro i pp ext _ k h1 h2
    omega
  | succ n ih =>
    intro i pp ext hh k h1 h2
    cases hres : resolveParent iTrack pp (jpaOf (particles i)) with
    | none =>
      rw [pushLoop_succ_none _ _ _ _ _ _ _ _ _ _ hres] at hh
      simp at hh
    | some iparent =>
      by_cases hnt : (env.pushTrack ext
          (pushArgs ops part (particles i) (trackIt.getD i 0) iparent)).2 < 0
      · rw [pushLoop_succ_fail _ _ _ _ _ _ _ _ _ _ _ hres hnt] at hh ⊢
        by_cases hk : k = i
        · subst hk
          exact ⟨_, _, List.mem_cons_self _ _⟩
        · obtain ⟨a, m, hm⟩ := ih (i + 1) _ _ hh k (by omega) (by omega)
          exact ⟨a, m, List.mem_cons_of_mem _ (List.mem_cons_of_mem _ hm)⟩
      · rw [pushLoop_succ_ok _ _ _ _ _ _ _ _ _ _ _ hres hnt] at hh ⊢
        by_cases hk : k = i
        · subst hk
          exact ⟨_, _, List.mem_cons_self _ _⟩
        · obtain ⟨a, m, hm⟩ := ih (i + 1) _ _ hh k (by omega) (by omega)
          exact ⟨a, m, List.mem_cons_of_mem _
            (List.mem_cons_of_mem _ (List.mem_cons_of_mem _ hm))⟩

theorem trackItLoop_length (particles : Nat → TParticle D) (n : Nat) :
    ∀ (i : Nat) (l : List Int), (trackItLoop particles n i l).length = l.length := by
  induction n with
  | zero => intro i l; rfl
  | succ n ih =>
    intro i l
    simp only [trackItLoop]
    rw [ih]
    split <;> simp

/-- The entry `k` of `trackIt` after the loop of lines 163-170 over the indices
`i .. i+n-1`. -/
theorem trackItLoop_getD (particles : Nat → TParticle D) (n : Nat) :
    ∀ (i : Nat) (l : List Int) (k : Nat),
    (trackItLoop particles n i l).getD k 0 =
      if i ≤ k ∧ k < i + n ∧ k < l.length ∧ (particles k).statusCode = 1 then 1
      else l.getD k 0 := by
  induction n with
  | zero =>
    intro i l k
    have : ¬ (i ≤ k ∧ k < i + 0 ∧ k < l.length ∧ (particles k).statusCode = 1) := by omega
    simp only [trackItLoop, this, if_false]
  | succ n ih =>
    intro i l k
    simp only [trackItLoop]
    rw [ih]
    by_cases hs : (particles i).statusCode = 1
    · simp only [hs, if_true, List.length_set]
      by_cases hk : k = i
      · subst hk
        by_cases hl : k < l.length
        · have h1 : ¬ (k + 1 ≤ k ∧ k < k + 1 + n ∧ k < l.length ∧
              (particles k).statusCode = 1) := by omega
          have h2 : (k ≤ k ∧ k < k + (n + 1) ∧ k < l.length ∧
              (particles k).statusCode = 1) := ⟨le_refl _, by omega, hl, hs⟩
          simp [h1, h2, List.getD_eq_getElem?_getD, List.getElem?_set_self hl]
        · have h1 : ¬ (k + 1 ≤ k ∧ k < k + 1 + n ∧ k < l.length ∧
              (particles k).statusCode = 1) := by omega
          have h2 : ¬ (k ≤ k ∧ k < k + (n + 1) ∧ k < l.length ∧
              (particles k).statusCode = 1) := by omega
          simp only [h1, h2, if_false, List.getD_eq_getElem?_getD]
          rw [List.getElem?_eq_none (by simp; omega), List.getElem?_eq_none (by omega)]
      · have hne : i ≠ k := fun h => hk h.symm
        have hiff : (i + 1 ≤ k ∧ k < i + 1 + n ∧ k < l.length ∧ (particles k).statusCode = 1) ↔
            (i ≤ k ∧ k < i + (n + 1) ∧ k < l.length ∧ (particles k).statusCode = 1) := by
          constructor
          · rintro ⟨a, b, c, d⟩; exact ⟨by omega, by omega, c, d⟩
          · rintro ⟨a, b, c, d⟩; exact ⟨by omega, by omega, c, d⟩
        simp only [hiff, List.getD_eq_getElem?_getD, List.getElem?_set_ne hne]
    · simp only [hs, if_false]
      have hiff : (i + 1 ≤ k ∧ k < i + 1 + n ∧ k < l.length ∧ (particles k).statusCode = 1) ↔
          (i ≤ k ∧ k < i + (n + 1) ∧ k < l.length ∧ (particles k).statusCode = 1) := by
        constructor
        · rintro ⟨a, b, c, d⟩; exact ⟨by omega, by omega, c, d⟩
        · rintro ⟨a, b, c, d⟩
          refine ⟨?_, by omega, c, d⟩
          by_contra hcon
          have : k = i := by omega
          subst this
          exact hs d
      simp only [hiff]

/-- The entry of `trackIt` read at line 206 for a product `k` with `1 ≤ k < np`. -/
theorem mkTrackIt_getD (np : Int) (particles : Nat → TParticle D) (k : Nat)
    (h1 : 1 ≤ k) (h2 : (k : Int) < np) :
    (mkTrackIt np particles).getD k 0 = if (particles k).statusCode = 1 then 1 else 0 := by
  have hnp : np > 1 := by omega
  simp only [mkTrackIt, hnp, if_true]
  rw [trackItLoop_getD]
  have hk : k < np.toNat := by omega
  have h0 : (List.replicate np.toNat (0 : Int)).getD k 0 = 0 := by
    simp [List.getD_eq_getElem?_getD, List.getElem?_replicate, hk]
  by_cases hs : (particles k).statusCode = 1
  · have : (1 ≤ k ∧ k < 1 + (np - 1).toNat ∧ k < (List.replicate np.toNat (0 : Int)).length ∧
        (particles k).statusCode = 1) := ⟨h1, by omega, by simpa using hk, hs⟩
    rw [if_pos this, if_pos hs]
  · have : ¬ (1 ≤ k ∧ k < 1 + (np - 1).toNat ∧ k < (List.replicate np.toNat (0 : Int)).length ∧
        (particles k).statusCode = 1) := fun h => hs h.2.2.2
    rw [if_neg this, if_neg hs, h0]

/-- The pushes of `pushProducts` have local indices `1 ≤ k < np`. -/
theorem pushProducts_push_mem (env : Collaborators σ D F) (ops : FloatOps D F) (iTrack : Nat)
    (part : TParticle D) (np : Int) (particles : Nat → TParticle D) (ext : σ)
    (t k : Nat) (args : PushArgs F) (nt : Int)
    (h : Event.push t k args nt ∈
      (pushProducts env ops iTrack part np particles ext).events) :
    t = iTrack ∧ 1 ≤ k ∧ (k : Int) < np ∧
      args = pushArgs ops part (particles k)
        (if (particles k).statusCode = 1 then 1 else 0) args.parent := by
  obtain ⟨h1, h2, h3, h4⟩ := pushLoop_push_mem _ _ _ _ _ _ _ _ _ _ _ _ _ _ h
  have hk : (k : Int) < np := by omega
  refine ⟨h1, h2, hk, ?_⟩
  rw [mkTrackIt_getD np particles k h2 hk] at h4
  exact h4

theorem mkPParent_getElem? (np : Int) (j : Nat) (v : Int)
    (h : (mkPParent np)[j]? = some v) : v = -1 := by
  simp only [mkPParent, List.getElem?_replicate] at h
  split at h
  · exact (Option.some.inj h).symm
  · simp at h

end PushLoop

/-! ## Parentage (lines 186-187 and 205-212) -/

section Parentage

variable {σ D F : Type}

/-- C1: in the loop of `Generate` over the products of a candidate, a pushed product
whose first-mother index minus 1 (the `Int_t` value `jpa` of line 186) is at most 0 has
the candidate's stack index as parent, and a pushed product whose first-mother index
minus 1 is some `j > 0` pushed earlier with success has as parent the stack index the
push of `j` returned; a loop that was not stopped pushes every product `1 ≤ i < np`; and
`jpa` is the first-mother index minus 1 for every first-mother index of the `Int_t`
range above `-2^31`. -/
theorem parent_of_pushed_product (env : Collaborators σ D F) (ops : FloatOps D F)
    (iTrack : Nat) (part : TParticle D) (np : Int) (particles : Nat → TParticle D) (ext : σ) :
    (∀ (i : Nat) (args : PushArgs F) (nt : Int),
      Event.push iTrack i args nt ∈
        (pushProducts env ops iTrack part np particles ext).events →
      1 ≤ i ∧
      (jpaOf (particles i) ≤ 0 → args.parent = iTrack) ∧
      (∀ (j : Nat) (aj : PushArgs F) (ntj : Int),
        jpaOf (particles i) = j → 0 < j → j < i →
        Event.push iTrack j aj ntj ∈
          (pushProducts env ops iTrack part np particles ext).events →
        0 ≤ ntj → args.parent = ntj)) ∧
    ((pushProducts env ops iTrack part np particles ext).halt = none →
      ∀ i : Nat, 1 ≤ i → (i : Int) < np → ∃ (args : PushArgs F) (nt : Int),
        Event.push iTrack i args nt ∈
          (pushProducts env ops iTrack part np particles ext).events) ∧
    (∀ i : Nat, -2147483648 < (particles i).firstMother →
      (particles i).firstMother < 2147483648 →
      jpaOf (particles i) = (particles i).firstMother - 1) := by
  refine ⟨?_, ?_, fun i h1 h2 => jpaOf_eq (particles i) h1 h2⟩
  · intro i args nt h
    obtain ⟨_, hi1, hi2, _⟩ := pushProducts_push_mem _ _ _ _ _ _ _ _ _ _ _ h
    have hlen : 1 + (np - 1).toNat ≤ (mkPParent np).length := by
      simp only [mkPParent, List.length_replicate]
      omega
    obtain ⟨p1, _, p3⟩ := pushLoop_parent _ _ _ _ _ _ _ _ _ _ _ _ _ _ hlen h
    refine ⟨hi1, p1, ?_⟩
    intro j aj ntj hj hj0 hji hmem hnt
    have hjt : (jpaOf (particles i)).toNat = j := by omega
    have := p3 (by omega) (by omega) (by omega) iTrack aj ntj (by rw [hjt]; exact hmem)
    exact this.1 hnt
  · intro hh i h1 h2
    exact pushLoop_push_exists _ _ _ _ _ _ _ _ _ _ hh i h1 (by omega)

/-- C2 (amended): when the push of a product `j ≥ 1` fails, every later pushed product
whose first-mother index minus 1 (the `Int_t` value `jpa` of line 186) is `j` is pushed
with parent -1, the value `pParent[j]` still holds; and when the loop is not stopped such
a product `k < np` is pushed. -/
theorem parent_after_failed_push (env : Collaborators σ D F) (ops : FloatOps D F)
    (iTrack : Nat) (part : TParticle D) (np : Int) (particles : Nat → TParticle D) (ext : σ)
    (j k : Nat) (aj : PushArgs F) (ntj : Int)
    (hj : Event.push iTrack j aj ntj ∈
      (pushProducts env ops iTrack part np particles ext).events)
    (hfail : ntj < 0)
    (hmother : jpaOf (particles k) = j) (hlater : j < k) :
    (∀ (ak : PushArgs F) (ntk : Int),
      Event.push iTrack k ak ntk ∈
        (pushProducts env ops iTrack part np particles ext).events →
      ak.parent = -1) ∧
    ((pushProducts env ops iTrack part np particles ext).halt = none → (k : Int) < np →
      ∃ (ak : PushArgs F) (ntk : Int),
        Event.push iTrack k ak ntk ∈
          (pushProducts env ops iTrack part np particles ext).events ∧
        ak.parent = -1) := by
  obtain ⟨_, hj1, _, _⟩ := pushProducts_push_mem _ _ _ _ _ _ _ _ _ _ _ hj
  have key : ∀ (ak : PushArgs F) (ntk : Int),
      Event.push iTrack k ak ntk ∈
        (pushProducts env ops iTrack part np particles ext).events →
      ak.parent = -1 := by
    intro ak ntk hk
    obtain ⟨_, _, hk2, _⟩ := pushProducts_push_mem _ _ _ _ _ _ _ _ _ _ _ hk
    have hlen : 1 + (np - 1).toNat ≤ (mkPParent np).length := by
      simp only [mkPParent, List.length_replicate]
      omega
    obtain ⟨_, _, p3⟩ := pushLoop_parent _ _ _ _ _ _ _ _ _ _ _ _ _ _ hlen hk
    have hjt : (jpaOf (particles k)).toNat = j := by omega
    have := (p3 (by omega) (by omega) (by omega) iTrack aj ntj
      (by rw [hjt]; exact hj)).2 hfail
    exact mkPParent_getElem? np _ _ this
  refine ⟨key, ?_⟩
  intro hh hk
  obtain ⟨ak, ntk, hmem⟩ := pushLoop_push_exists _ _ _ _ _ _ _ _ _ _ hh k (by omega) (by omega)
  exact ⟨ak, ntk, hmem, key ak ntk hmem⟩

/-- Witness for C1: with first-mother fields `[_, 0, 0, 2]` and every push succeeding,
product 3 (first-mother index minus 1 equal to 1) is pushed with the stack index 1 that
the push of product 1 returned. -/
theorem parent_of_pushed_product_witness :
    Event.push 0 1 (pushArgs intOps sampleCandidate (answer002 1) 1 0) 1 ∈
      (pushProducts (sampleEnv 0 4 answer002 0) intOps 0 sampleCandidate 4 answer002
        ⟨1, 0, 0⟩).events ∧
    Event.push 0 3 (pushArgs intOps sampleCandidate (answer002 3) 1 1) 3 ∈
      (pushProducts (sampleEnv 0 4 answer002 0) intOps 0 sampleCandidate 4 answer002
        ⟨1, 0, 0⟩).events ∧
    (pushArgs intOps sampleCandidate (answer002 3) 1 1).parent = 1 :=
  ⟨by decide, by decide,
   ((parent_of_pushed_product (sampleEnv 0 4 answer002 0) intOps 0 sampleCandidate 4
      answer002 ⟨1, 0, 0⟩).1 3 (pushArgs intOps sampleCandidate (answer002 3) 1 1) 3
      (by decide)).2.2 1 (pushArgs intOps sampleCandidate (answer002 1) 1 0) 1
      (by decide) (by decide) (by decide) (by decide) (by decide)⟩

/-- Counterexample to C2: first-mother fields `[_, 1, 1, 3]`, the push of product 2 fails
(it leaves -1 in `nt`), and product 3, whose first-mother index minus 1 is 2, is pushed
with parent -1 and not with the candidate's stack index 0. -/
theorem degraded_parent_counterexample :
    (answer113 3).firstMother - 1 = 2 ∧
    parentsOf (pushProducts (sampleEnv 0 4 answer113 2) intOps 0 sampleCandidate 4 answer113
      ⟨1, 0, 0⟩).events = [(1, 0, 1), (2, 0, -1), (3, -1, 2)] ∧
    Event.push 0 3 (pushArgs intOps sampleCandidate (answer113 3) 1 (-1)) 2 ∈
      (pushProducts (sampleEnv 0 4 answer113 2) intOps 0 sampleCandidate 4 answer113
        ⟨1, 0, 0⟩).events ∧
    (pushArgs intOps sampleCandidate (answer113 3) 1 (-1)).parent ≠ 0 := by
  decide

/-- Witness for C2 (amended), on the run of the counterexample. -/
theorem parent_after_failed_push_witness :
    Event.push 0 2 (pushArgs intOps sampleCandidate (answer113 2) 0 0) (-1) ∈
      (pushProducts (sampleEnv 0 4 answer113 2) intOps 0 sampleCandidate 4 answer113
        ⟨1, 0, 0⟩).events ∧
    Event.push 0 3 (pushArgs intOps sampleCandidate (answer113 3) 1 (-1)) 2 ∈
      (pushProducts (sampleEnv 0 4 answer113 2) intOps 0 sampleCandidate 4 answer113
        ⟨1, 0, 0⟩).events ∧
    (pushArgs intOps sampleCandidate (answer113 3) 1 (-1)).parent = -1 :=
  ⟨by decide, by decide,
   (parent_after_failed_push (sampleEnv 0 4 answer113 2) intOps 0 sampleCandidate 4 answer113
     ⟨1, 0, 0⟩ 2 3 (pushArgs intOps sampleCandidate (answer113 2) 0 0) (-1)
     (by decide) (by decide) (by decide) (by decide)).1
     (pushArgs intOps sampleCandidate (answer113 3) 1 (-1)) 2 (by decide)⟩

/-- C3 (amended): for an answer of count 4 whose products 1 and 2 have first-mother
field 0, with every push succeeding, the three products are pushed in order; products 1
and 2 have the candidate as parent; product 3 with first-mother field 2 has as parent the
stack index returned by the push of product 1, and with first-mother field 3 the stack
index returned by the push of product 2. -/
theorem parent_of_third_product (env : Collaborators σ D F) (ops : FloatOps D F)
    (iTrack : Nat) (part : TParticle D) (particles : Nat → TParticle D) (ext : σ)
    (h1 : (particles 1).firstMother = 0) (h2 : (particles 2).firstMother = 0)
    (hok : ∀ (e : σ) (a : PushArgs F), 0 ≤ (env.pushTrack e a).2) :
    ((particles 3).firstMother = 2 → ∃ n1 n2 n3 : Int,
      parentsOf (pushProducts env ops iTrack part 4 particles ext).events =
        [(1, (iTrack : Int), n1), (2, (iTrack : Int), n2), (3, n1, n3)]) ∧
    ((particles 3).firstMother = 3 → ∃ n1 n2 n3 : Int,
      parentsOf (pushProducts env ops iTrack part 4 particles ext).events =
        [(1, (iTrack : Int), n1), (2, (iTrack : Int), n2), (3, n2, n3)]) := by
  have hnt : ∀ (e : σ) (a : PushArgs F), ¬ (env.pushTrack e a).2 < 0 :=
    fun e a => not_lt.mpr (hok e a)
  have e3 : ((4 : Int) - 1).toNat = 3 := rfl
  have hpp : mkPParent 4 = [-1, -1, -1, -1] := rfl
  have j1 : jpaOf (particles 1) = -1 := by
    unfold jpaOf
    rw [h1]
    decide
  have j2 : jpaOf (particles 2) = -1 := by
    unfold jpaOf
    rw [h2]
    decide
  constructor
  · intro h3
    have j3 : jpaOf (particles 3) = 1 := by
      unfold jpaOf
      rw [h3]
      decide
    simp only [pushProducts, e3, hpp, pushLoop, resolveParent, j1, j2, j3, hnt, if_false]
    simp [parentsOf, pushesOf, pushArgs]
  · intro h3
    have j3 : jpaOf (particles 3) = 2 := by
      unfold jpaOf
      rw [h3]
      decide
    simp only [pushProducts, e3, hpp, pushLoop, resolveParent, j1, j2, j3, hnt, if_false]
    simp [parentsOf, pushesOf, pushArgs]

/-- Counterexample to C3: with first-mother fields `[_, 0, 0, 2]` and every push
succeeding, the pushes return 1, 2 and 3, and product 3 is pushed with parent 1, the
index returned for product 1, not with 2, the index returned for product 2. -/
theorem parent_of_third_product_counterexample :
    ((answer002 1).firstMother, (answer002 2).firstMother, (answer002 3).firstMother) =
      (0, 0, 2) ∧
    parentsOf (pushProducts (sampleEnv 0 4 answer002 0) intOps 0 sampleCandidate 4 answer002
      ⟨1, 0, 0⟩).events = [(1, 0, 1), (2, 0, 2), (3, 1, 3)] ∧
    ∃ (a2 a3 : PushArgs Int) (n2 n3 : Int),
      Event.push 0 2 a2 n2 ∈
        (pushProducts (sampleEnv 0 4 answer002 0) intOps 0 sampleCandidate 4 answer002
          ⟨1, 0, 0⟩).events ∧
      Event.push 0 3 a3 n3 ∈
        (pushProducts (sampleEnv 0 4 answer002 0) intOps 0 sampleCandidate 4 answer002
          ⟨1, 0, 0⟩).events ∧
      a3.parent ≠ n2 :=
  ⟨by decide, by decide,
   pushArgs intOps sampleCandidate (answer002 2) 0 0,
   pushArgs intOps sampleCandidate (answer002 3) 1 1, 2, 3,
   by decide, by decide, by decide⟩

/-- Witness for C3 (amended), on the run of the counterexample. -/
theorem parent_of_third_product_witness :
    ∃ n1 n2 n3 : Int,
      parentsOf (pushProducts (sampleEnv 0 4 answer002 0) intOps 0 sampleCandidate 4
        answer002 ⟨1, 0, 0⟩).events = [(1, 0, n1), (2, 0, n2), (3, n1, n3)] :=
  (parent_of_third_product (sampleEnv 0 4 answer002 0) intOps 0 sampleCandidate answer002
    ⟨1, 0, 0⟩ (by decide) (by decide)
    (fun e a => by
      have hne : ¬ (e.pushCalls + 1 = 0) := Nat.succ_ne_zero _
      simp [sampleEnv, hne])).1 (by decide)

end Parentage

/-! ## Track flag, origin and time (lines 152-172 and 174-206) -/

section Kinematics

variable {σ D F : Type}

/-- C5: the track flag passed to the push of a product is 1 exactly when the status code
the engine gave the product is 1, and 0 otherwise; it is the same under any behaviour
of the stack and the engine, so it does not depend on a push succeeding. -/
theorem track_flag_iff_stable (env env2 : Collaborators σ D F) (ops : FloatOps D F)
    (iTrack : Nat) (part : TParticle D) (np : Int) (particles : Nat → TParticle D)
    (ext ext2 : σ) (i : Nat) (args args2 : PushArgs F) (nt nt2 : Int)
    (h : Event.push iTrack i args nt ∈
      (pushProducts env ops iTrack part np particles ext).events)
    (h2 : Event.push iTrack i args2 nt2 ∈
      (pushProducts env2 ops iTrack part np particles ext2).events) :
    (args.done = 1 ↔ (particles i).statusCode = 1) ∧
    (args.done = 0 ↔ (particles i).statusCode ≠ 1) ∧
    args2.done = args.done := by
  obtain ⟨_, _, _, e⟩ := pushProducts_push_mem _ _ _ _ _ _ _ _ _ _ _ h
  obtain ⟨_, _, _, e2⟩ := pushProducts_push_mem _ _ _ _ _ _ _ _ _ _ _ h2
  have hd : args.done = if (particles i).statusCode = 1 then 1 else 0 :=
    congrArg PushArgs.done e
  have hd2 : args2.done = if (particles i).statusCode = 1 then 1 else 0 :=
    congrArg PushArgs.done e2
  rw [hd2, hd]
  by_cases hs : (particles i).statusCode = 1
  · simp [hs]
  · simp [hs]

/-- Witness for C5: product 2 of the sample answer has status 2 and is pushed with flag 0,
whether the push succeeds (first run) or fails (second run). -/
theorem track_flag_iff_stable_witness :
    Event.push 0 2 (pushArgs intOps sampleCandidate (answer002 2) 0 0) 2 ∈
      (pushProducts (sampleEnv 0 4 answer002 0) intOps 0 sampleCandidate 4 answer002
        ⟨1, 0, 0⟩).events ∧
    Event.push 0 2 (pushArgs intOps sampleCandidate (answer002 2) 0 0) (-1) ∈
      (pushProducts (sampleEnv 0 4 answer002 2) intOps 0 sampleCandidate 4 answer002
        ⟨1, 0, 0⟩).events ∧
    (((pushArgs intOps sampleCandidate (answer002 2) 0 0).done = 1 ↔
        (answer002 2).statusCode = 1) ∧
      ((pushArgs intOps sampleCandidate (answer002 2) 0 0).done = 0 ↔
        (answer002 2).statusCode ≠ 1) ∧
      (pushArgs intOps sampleCandidate (answer002 2) 0 0).done =
        (pushArgs intOps sampleCandidate (answer002 2) 0 0).done) :=
  ⟨by decide, by decide,
   track_flag_iff_stable (sampleEnv 0 4 answer002 0) (sampleEnv 0 4 answer002 2) intOps 0
     sampleCandidate 4 answer002 ⟨1, 0, 0⟩ ⟨1, 0, 0⟩ 2
     (pushArgs intOps sampleCandidate (answer002 2) 0 0)
     (pushArgs intOps sampleCandidate (answer002 2) 0 0) 2 (-1) (by decide) (by decide)⟩

/-- Counterexample to C6: a candidate produced at `x = 16777217` and a product with
position offset 1.  The origin copied to `origin0` is 16777216, and the push gets
`x = 16777216`, while the candidate's origin plus the offset is 16777218, a value that
`Float_t` holds. -/
theorem origin_and_time_of_push_counterexample :
    roundToFloat wideCandidate.vx = 16777216 ∧
    Event.push 0 1 (pushArgs float32Ops wideCandidate (answerUnit 1) 0 0) 1 ∈
      (pushProducts (sampleEnv 0 2 answerUnit 0) float32Ops 0 wideCandidate 2 answerUnit
        ⟨1, 0, 0⟩).events ∧
    (pushArgs float32Ops wideCandidate (answerUnit 1) 0 0).vpos = (16777216, 0, 0) ∧
    wideCandidate.vx + (answerUnit 1).vx = 16777218 ∧
    roundToFloat (wideCandidate.vx + (answerUnit 1).vx) = 16777218 ∧
    (pushArgs float32Ops wideCandidate (answerUnit 1) 0 0).vpos.1 ≠
      roundToFloat (wideCandidate.vx + (answerUnit 1).vx) := by
  refine ⟨?_, ?_, ?_, ?_, ?_, ?_⟩
  · decide
  · decide
  · decide
  · decide
  · decide
  · decide

/-- C6 (amended): the origin passed to the push of a product is, in each component, the
`Float_t` conversion of the sum of the `Float_t` copy of the candidate's origin
(`origin0`) and the product's position, which is the `Float_t` conversion of the
candidate's origin plus the product's position when `Float_t` holds that component of
the candidate's origin; the time passed is the `Float_t` conversion of the candidate's
time plus the product's time; the parent chosen for the product plays no part. -/
theorem origin_and_time_of_push (env : Collaborators σ D F) (ops : FloatOps D F)
    (iTrack : Nat) (part : TParticle D) (np : Int) (particles : Nat → TParticle D) (ext : σ)
    (i : Nat) (args : PushArgs F) (nt : Int)
    (h : Event.push iTrack i args nt ∈
      (pushProducts env ops iTrack part np particles ext).events) :
    args.vpos =
      (ops.toFloat (ops.addD (ops.toDouble (ops.toFloat part.vx)) (particles i).vx),
       ops.toFloat (ops.addD (ops.toDouble (ops.toFloat part.vy)) (particles i).vy),
       ops.toFloat (ops.addD (ops.toDouble (ops.toFloat part.vz)) (particles i).vz)) ∧
    args.tof = ops.toFloat (ops.addD part.t (particles i).t) ∧
    (ops.toDouble (ops.toFloat part.vx) = part.vx →
      args.vpos.1 = ops.toFloat (ops.addD part.vx (particles i).vx)) ∧
    (ops.toDouble (ops.toFloat part.vy) = part.vy →
      args.vpos.2.1 = ops.toFloat (ops.addD part.vy (particles i).vy)) ∧
    (ops.toDouble (ops.toFloat part.vz) = part.vz →
      args.vpos.2.2 = ops.toFloat (ops.addD part.vz (particles i).vz)) := by
  obtain ⟨_, _, _, e⟩ := pushProducts_push_mem _ _ _ _ _ _ _ _ _ _ _ h
  have hv : args.vpos =
      (ops.toFloat (ops.addD (ops.toDouble (ops.toFloat part.vx)) (particles i).vx),
       ops.toFloat (ops.addD (ops.toDouble (ops.toFloat part.vy)) (particles i).vy),
       ops.toFloat (ops.addD (ops.toDouble (ops.toFloat part.vz)) (particles i).vz)) :=
    congrArg PushArgs.vpos e
  refine ⟨hv, congrArg PushArgs.tof e, ?_, ?_, ?_⟩
  · intro hx
    rw [hv, hx]
  · intro hy
    rw [hv, hy]
  · intro hz
    rw [hv, hz]

/-- Witness for C6 (amended): with the rounding conversion, product 3 of the sample
answer, whose parent is product 1, is pushed at the candidate's origin
(1000, 2000, 3000), which `Float_t` holds, plus its own offset (30, 60, 90), at the
candidate's time 5000 plus 30. -/
theorem origin_and_time_of_push_witness :
    Event.push 0 3 (pushArgs float32Ops sampleCandidate (answer002 3) 1 1) 3 ∈
      (pushProducts (sampleEnv 0 4 answer002 0) float32Ops 0 sampleCandidate 4 answer002
        ⟨1, 0, 0⟩).events ∧
    (pushArgs float32Ops sampleCandidate (answer002 3) 1 1).vpos =
      (roundToFloat (roundToFloat 1000 + 30), roundToFloat (roundToFloat 2000 + 60),
        roundToFloat (roundToFloat 3000 + 90)) ∧
    (pushArgs float32Ops sampleCandidate (answer002 3) 1 1).tof = roundToFloat (5000 + 30) ∧
    (pushArgs float32Ops sampleCandidate (answer002 3) 1 1).vpos.1 =
      roundToFloat (1000 + 30) ∧
    roundToFloat (1000 + 30) = 1030 :=
  ⟨by decide,
   (origin_and_time_of_push (sampleEnv 0 4 answer002 0) float32Ops 0 sampleCandidate 4
     answer002 ⟨1, 0, 0⟩ 3 (pushArgs float32Ops sampleCandidate (answer002 3) 1 1) 3
     (by decide)).1,
   (origin_and_time_of_push (sampleEnv 0 4 answer002 0) float32Ops 0 sampleCandidate 4
     answer002 ⟨1, 0, 0⟩ 3 (pushArgs float32Ops sampleCandidate (answer002 3) 1 1) 3
     (by decide)).2.1,
   (origin_and_time_of_push (sampleEnv 0 4 answer002 0) float32Ops 0 sampleCandidate 4
     answer002 ⟨1, 0, 0⟩ 3 (pushArgs float32Ops sampleCandidate (answer002 3) 1 1) 3
     (by decide)).2.2.1 (by decide),
   by decide⟩

end Kinematics

/-! ## The retry loop (lines 144-148) -/

section Retry

variable {σ D F : Type}

/-- The retry loop when the engine reports a negative count on its first `K`
invocations and a count that is not negative on the next one: with a budget above `K`
the loop stops after `K + 1` invocations and hands over the last answer. -/
theorem decayLoop_eq (env : Collaborators σ D F) (iTrack : Nat) (pdg : Int)
    (mom : LorentzVector D) (K : Nat) : ∀ (fuel : Nat) (ext : σ),
    (∀ k : Nat, k < K → (decayAnswer env pdg mom k ext).2.1 < 0) →
    0 ≤ (decayAnswer env pdg mom K ext).2.1 →
    K < fuel →
    decayLoop env iTrack pdg mom fuel ext =
      ⟨(decayAnswer env pdg mom K ext).1,
       (List.range (K + 1)).map
         (fun k => Event.decay iTrack pdg mom (decayAnswer env pdg mom k ext).2.1),
       some ((decayAnswer env pdg mom K ext).2.1, (decayAnswer env pdg mom K ext).2.2)⟩ := by
  induction K with
  | zero =>
    intro fuel ext _ hok hfuel
    obtain ⟨f, rfl⟩ : ∃ f, fuel = f + 1 := ⟨fuel - 1, by omega⟩
    have h0 : ¬ (env.decay ext pdg mom).2.1 < 0 := not_lt.mpr hok
    simp only [decayLoop, h0, if_false]
    rfl
  | succ K ih =>
    intro fuel ext hneg hok hfuel
    obtain ⟨f, rfl⟩ : ∃ f, fuel = f + 1 := ⟨fuel - 1, by omega⟩
    have h0 : (env.decay ext pdg mom).2.1 < 0 := hneg 0 (by omega)
    have hrec := ih f (env.decay ext pdg mom).1
      (fun k hk => hneg (k + 1) (by omega)) hok (by omega)
    simp only [decayLoop, h0, if_true, hrec]
    have hr : List.range (K + 1 + 1) = 0 :: (List.range (K + 1)).map Nat.succ :=
      List.range_succ_eq_map (K + 1)
    rw [hr]
    simp only [List.map_cons, List.map_map]
    rfl

theorem decayCount_append (iTrack : Nat) (l1 l2 : List (Event D F)) :
    decayCount iTrack (l1 ++ l2) = decayCount iTrack l1 + decayCount iTrack l2 := by
  induction l1 with
  | nil => simp [decayCount]
  | cons e es ih =>
    cases e <;> simp [decayCount, ih]
    omega

theorem decayCount_map_range (iTrack : Nat) (pdg : Int) (mom : LorentzVector D)
    (f : Nat → Int) (n : Nat) :
    decayCount iTrack
      ((List.range n).map (fun k => (Event.decay iTrack pdg mom (f k) : Event D F))) = n := by
  induction n with
  | zero => rfl
  | succ n ih =>
    rw [List.range_succ, List.map_append, decayCount_append, ih]
    simp [decayCount]

/-- The events of the loop over the products are pushes for the candidate, push
warnings, and the two notifications. -/
theorem pushLoop_events_kind (env : Collaborators σ D F) (ops : FloatOps D F) (iTrack : Nat)
    (part : TParticle D) (particles : Nat → TParticle D) (trackIt : List Int)
    (n : Nat) : ∀ (i : Nat) (pp : List Int) (ext : σ) (e : Event D F),
    e ∈ (pushLoop env ops iTrack part particles trackIt n i pp ext).events →
    (∃ k a nt, e = Event.push iTrack k a nt) ∨ (∃ k kf, e = Event.warnPush k kf) ∨
      (∃ nt, e = Event.keepTrack nt) ∨ (∃ nt, e = Event.setHighWaterMark nt) := by
  induction n with
  | zero =>
    intro i pp ext e h
    simp [pushLoop_zero] at h
  | succ n ih =>
    intro i pp ext e h
    cases hres : resolveParent iTrack pp (jpaOf (particles i)) with
    | none =>
      rw [pushLoop_succ_none _ _ _ _ _ _ _ _ _ _ hres] at h
      simp at h
    | some iparent =>
      by_cases hnt : (env.pushTrack ext
          (pushArgs ops part (particles i) (trackIt.getD i 0) iparent)).2 < 0
      · rw [pushLoop_succ_fail _ _ _ _ _ _ _ _ _ _ _ hres hnt] at h
        simp only [List.mem_cons] at h
        rcases h with rfl | rfl | h
        · exact Or.inl ⟨_, _, _, rfl⟩
        · exact Or.inr (Or.inl ⟨_, _, rfl⟩)
        · exact ih _ _ _ _ h
      · rw [pushLoop_succ_ok _ _ _ _ _ _ _ _ _ _ _ hres hnt] at h
        simp only [List.mem_cons] at h
        rcases h with rfl | rfl | rfl | h
        · exact Or.inl ⟨_, _, _, rfl⟩
        · exact Or.inr (Or.inr (Or.inl ⟨_, rfl⟩))
        · exact Or.inr (Or.inr (Or.inr ⟨_, rfl⟩))
        · exact ih _ _ _ _ h

theorem decayCount_eq_zero (iTrack : Nat) (l : List (Event D F))
    (h : ∀ e ∈ l, ∀ t pdg mom np, e ≠ Event.decay t pdg mom np) : decayCount iTrack l = 0 := by
  induction l with
  | nil => rfl
  | cons e es ih =>
    have hes := ih (fun e he => h e (List.mem_cons_of_mem _ he))
    cases e with
    | decay t pdg mom np => exact absurd rfl (h _ (List.mem_cons_self _ _) t pdg mom np)
    | fetch _ => simpa [decayCount] using hes
    | warnDecayed _ _ => simpa [decayCount] using hes
    | push _ _ _ _ => simpa [decayCount] using hes
    | warnPush _ _ => simpa [decayCount] using hes
    | keepTrack _ => simpa [decayCount] using hes
    | setHighWaterMark _ => simpa [decayCount] using hes

theorem decayCount_pushProducts (env : Collaborators σ D F) (ops : FloatOps D F)
    (iTrack : Nat) (part : TParticle D) (np : Int) (particles : Nat → TParticle D) (ext : σ)
    (c : Nat) :
    decayCount c (pushProducts env ops iTrack part np particles ext).events = 0 := by
  apply decayCount_eq_zero
  intro e he t pdg mom n heq
  rcases pushLoop_events_kind _ _ _ _ _ _ _ _ _ _ _ he with
    ⟨_, _, _, h⟩ | ⟨_, _, h⟩ | ⟨_, h⟩ | ⟨_, h⟩ <;> rw [heq] at h <;> cases h

/-- C7: for a candidate that passes the species switch and the check of line 132, when
the engine reports a negative count on exactly its first `K` invocations and a count that
is not negative on the next one, the body of the loop of `Generate` (with a budget above
`K`) invokes the engine `K + 1` times, leaves the retry loop, and relinks the products
of invocation number `K + 1`. -/
theorem retry_until_count_nonnegative (env : Collaborators σ D F) (ops : FloatOps D F)
    (sw : SwitchOff) (fuel : Nat) (iTrack : Nat) (s : State σ D F) (K : Nat)
    (hsw : passesSwitch sw (GetFlavour (s.parts iTrack).pdgCode) = true)
    (hst : (s.parts iTrack).statusCode = 1) (hnd : (s.parts iTrack).nDaughters ≤ 0)
    (hneg : ∀ k : Nat, k < K →
      (decayAnswer env (s.parts iTrack).pdgCode
        (momentumOf (s.parts iTrack)) k s.ext).2.1 < 0)
    (hok : 0 ≤ (decayAnswer env (s.parts iTrack).pdgCode
        (momentumOf (s.parts iTrack)) K s.ext).2.1)
    (hfuel : K < fuel) :
    processTrack env ops sw fuel iTrack s =
      (let part := markDecayed (s.parts iTrack)
       let mom : LorentzVector D := momentumOf part
       let a := decayAnswer env part.pdgCode mom K s.ext
       let r := pushProducts env ops iTrack part a.2.1 a.2.2 a.1
       ⟨r.ext, Function.update s.parts iTrack part,
        s.log ++ [Event.fetch iTrack] ++
          (List.range (K + 1)).map
            (fun k => Event.decay iTrack part.pdgCode mom
              (decayAnswer env part.pdgCode mom k s.ext).2.1) ++ r.events,
        r.halt⟩) ∧
    decayCount iTrack (processTrack env ops sw fuel iTrack s).log =
      decayCount iTrack s.log + (K + 1) := by
  have hel : ¬ ((s.parts iTrack).statusCode ≠ 1 ∨ (s.parts iTrack).nDaughters > 0) := by
    rintro (h | h)
    · exact h hst
    · omega
  have hd := decayLoop_eq env iTrack (markDecayed (s.parts iTrack)).pdgCode
    (momentumOf (markDecayed (s.parts iTrack))) K fuel s.ext hneg hok hfuel
  have heq : processTrack env ops sw fuel iTrack s =
      (let part := markDecayed (s.parts iTrack)
       let mom : LorentzVector D := momentumOf part
       let a := decayAnswer env part.pdgCode mom K s.ext
       let r := pushProducts env ops iTrack part a.2.1 a.2.2 a.1
       ⟨r.ext, Function.update s.parts iTrack part,
        s.log ++ [Event.fetch iTrack] ++
          (List.range (K + 1)).map
            (fun k => Event.decay iTrack part.pdgCode mom
              (decayAnswer env part.pdgCode mom k s.ext).2.1) ++ r.events,
        r.halt⟩) := by
    simp only [processTrack, hsw, hel, hd]
    simp
  refine ⟨heq, ?_⟩
  rw [heq]
  simp only [decayCount_append, decayCount_map_range, decayCount_pushProducts]
  simp [decayCount]

/-- Witness for C7: the sample engine reports -1 twice and then the count 4; with a
budget of 3 the engine is invoked 3 times for the candidate. -/
theorem retry_until_count_nonnegative_witness :
    decayCount 0 (processTrack (sampleEnv 2 4 answer002 0) intOps defaultSwitchOff 3 0
      ⟨⟨1, 0, 0⟩, fun _ => sampleCandidate, [], none⟩).log = 0 + (2 + 1) :=
  (retry_until_count_nonnegative (sampleEnv 2 4 answer002 0) intOps defaultSwitchOff 3 0
    ⟨⟨1, 0, 0⟩, fun _ => sampleCandidate, [], none⟩ 2
    (by decide) (by decide) (by decide) (by decide) (by decide) (by decide)).2

end Retry

/-! ## The loop over the stack (lines 113-218) -/

section TrackLoop

variable {σ D F : Type}

/-- The events of the retry loop are engine invocations for the candidate; an accepted
answer is what the engine returned on the last of them, and its count is not negative. -/
theorem decayLoop_events (env : Collaborators σ D F) (iTrack : Nat) (pdg : Int)
    (mom : LorentzVector D) (fuel : Nat) : ∀ (ext : σ),
    (∀ e ∈ (decayLoop env iTrack pdg mom fuel ext).events,
      ∃ np, e = Event.decay iTrack pdg mom np) ∧
    (∀ (np : Int) (particles : Nat → TParticle D),
      (decayLoop env iTrack pdg mom fuel ext).result = some (np, particles) →
      0 ≤ np ∧ Event.decay iTrack pdg mom np ∈ (decayLoop env iTrack pdg mom fuel ext).events ∧
      ∃ ext0 : σ, env.decay ext0 pdg mom =
        ((decayLoop env iTrack pdg mom fuel ext).ext, np, particles)) := by
  induction fuel with
  | zero =>
    intro ext
    simp [decayLoop]
  | succ fuel ih =>
    intro ext
    by_cases h0 : (env.decay ext pdg mom).2.1 < 0
    · obtain ⟨ih1, ih2⟩ := ih (env.decay ext pdg mom).1
      simp only [decayLoop, h0, if_true]
      refine ⟨?_, ?_⟩
      · intro e he
        rcases List.mem_cons.mp he with rfl | he
        · exact ⟨_, rfl⟩
        · exact ih1 e he
      · intro np particles hres
        obtain ⟨a, b, c⟩ := ih2 np particles hres
        exact ⟨a, List.mem_cons_of_mem _ b, c⟩
    · simp only [decayLoop, h0, if_false]
      refine ⟨?_, ?_⟩
      · intro e he
        rcases List.mem_cons.mp he with rfl | he
        · exact ⟨_, rfl⟩
        · simp at he
      · intro np particles hres
        simp only [Option.some.injEq, Prod.mk.injEq] at hres
        obtain ⟨rfl, rfl⟩ := hres
        exact ⟨not_lt.mp h0, List.mem_cons_self _ _, ext, rfl⟩

/-- The records after the body of the loop for the index `iTrack`: the record of
`iTrack` is marked as decayed when the particle is selected, nothing else changes. -/
theorem processTrack_parts (env : Collaborators σ D F) (ops : FloatOps D F) (sw : SwitchOff)
    (fuel : Nat) (iTrack : Nat) (s : State σ D F) (j : Nat) :
    (processTrack env ops sw fuel iTrack s).parts j =
      if j = iTrack ∧ selected sw (s.parts iTrack) then markDecayed (s.parts iTrack)
      else s.parts j := by
  unfold processTrack selected
  by_cases hsw : passesSwitch sw (GetFlavour (s.parts iTrack).pdgCode) = false
  · have : ¬ (passesSwitch sw (GetFlavour (s.parts iTrack).pdgCode) = true) := by
      rw [hsw]; decide
    simp [hsw]
  · have hsw2 : passesSwitch sw (GetFlavour (s.parts iTrack).pdgCode) = true := by
      simpa using hsw
    by_cases hel : (s.parts iTrack).statusCode ≠ 1 ∨ (s.parts iTrack).nDaughters > 0
    · have hns : ¬ ((s.parts iTrack).statusCode = 1 ∧ ¬ (s.parts iTrack).nDaughters > 0) := by
        rintro ⟨a, b⟩
        rcases hel with h | h
        · exact h a
        · exact b h
      simp only [hsw2, hel, hns, and_false, if_false, if_true]
      simp
    · have hs : (s.parts iTrack).statusCode = 1 ∧ ¬ (s.parts iTrack).nDaughters > 0 := by
        constructor
        · by_contra h; exact hel (Or.inl h)
        · intro h; exact hel (Or.inr h)
      simp only [hsw2, hel, hs, and_true, if_false, not_true_eq_false, not_false_eq_true,
        and_self, Bool.true_eq_false]
      by_cases hj : j = iTrack
      · subst hj
        cases (decayLoop env j (markDecayed (s.parts j)).pdgCode
          (momentumOf (markDecayed (s.parts j))) fuel s.ext).result with
        | none => simp
        | some r => simp
      · cases (decayLoop env iTrack (markDecayed (s.parts iTrack)).pdgCode
          (momentumOf (markDecayed (s.parts iTrack))) fuel
            s.ext).result with
        | none => simp [hj, Function.update_noteq hj]
        | some r => simp [hj, Function.update_noteq hj]

theorem StepEvent.mono (env : Collaborators σ D F) (ops : FloatOps D F) (sw : SwitchOff)
    (c : Nat) (part : TParticle D) (new new2 : List (Event D F)) (e : Event D F)
    (hsub : ∀ x ∈ new, x ∈ new2) (h : StepEvent env ops sw c part new e) :
    StepEvent env ops sw c part new2 e := by
  rcases h with h | h | ⟨hs, h | ⟨np, particles, ext0, ext1, h0, h1, h2, h3⟩⟩
  · exact Or.inl h
  · exact Or.inr (Or.inl h)
  · exact Or.inr (Or.inr ⟨hs, Or.inl h⟩)
  · exact Or.inr (Or.inr ⟨hs, Or.inr ⟨np, particles, ext0, ext1, h0, hsub _ h1, h2, h3⟩⟩)

/-- The events of the body of the loop for the index `iTrack`. -/
theorem processTrack_log (env : Collaborators σ D F) (ops : FloatOps D F) (sw : SwitchOff)
    (fuel : Nat) (iTrack : Nat) (s : State σ D F) :
    ∃ new : List (Event D F),
      (processTrack env ops sw fuel iTrack s).log = s.log ++ new ∧
      ∀ e ∈ new, StepEvent env ops sw iTrack (s.parts iTrack) new e := by
  unfold processTrack
  by_cases hsw : passesSwitch sw (GetFlavour (s.parts iTrack).pdgCode) = false
  · refine ⟨[Event.fetch iTrack], by simp [hsw], ?_⟩
    intro e he
    exact Or.inl (by simpa using he)
  · have hsw2 : passesSwitch sw (GetFlavour (s.parts iTrack).pdgCode) = true := by
      simpa using hsw
    by_cases hel : (s.parts iTrack).statusCode ≠ 1 ∨ (s.parts iTrack).nDaughters > 0
    · have hns : ¬ selected sw (s.parts iTrack) := by
        rintro ⟨_, a, b⟩
        rcases hel with h | h
        · exact h a
        · exact b h
      refine ⟨Event.fetch iTrack ::
        (if abs32 (s.parts iTrack).pdgCode > 10 then
          [Event.warnDecayed iTrack (s.parts iTrack).pdgCode] else []), ?_, ?_⟩
      · simp only [hsw2, hel, if_true, Bool.true_eq_false, if_false]
        simp
      · intro e he
        rcases List.mem_cons.mp he with rfl | he
        · exact Or.inl rfl
        · split at he
          · exact Or.inr (Or.inl ⟨hns, by simpa using he⟩)
          · simp at he
    · have hs : selected sw (s.parts iTrack) := by
        refine ⟨hsw2, ?_, ?_⟩
        · by_contra h; exact hel (Or.inl h)
        · intro h; exact hel (Or.inr h)
      simp only [hsw2, hel, if_false, Bool.true_eq_false]
      obtain ⟨hd1, hd2⟩ := decayLoop_events env iTrack (markDecayed (s.parts iTrack)).pdgCode
        (momentumOf (markDecayed (s.parts iTrack))) fuel s.ext
      cases hres : (decayLoop env iTrack (markDecayed (s.parts iTrack)).pdgCode
          (momentumOf (markDecayed (s.parts iTrack))) fuel
            s.ext).result with
      | none =>
        refine ⟨Event.fetch iTrack :: (decayLoop env iTrack (markDecayed (s.parts iTrack)).pdgCode
          (momentumOf (markDecayed (s.parts iTrack))) fuel
            s.ext).events, by simp, ?_⟩
        intro e he
        rcases List.mem_cons.mp he with rfl | he
        · exact Or.inl rfl
        · obtain ⟨np, rfl⟩ := hd1 e he
          exact Or.inr (Or.inr ⟨hs, Or.inl ⟨np, rfl⟩⟩)
      | some r =>
        obtain ⟨np, particles⟩ := r
        obtain ⟨h0, hmem, ext0, hext⟩ := hd2 np particles hres
        refine ⟨Event.fetch iTrack :: ((decayLoop env iTrack
          (markDecayed (s.parts iTrack)).pdgCode
          (momentumOf (markDecayed (s.parts iTrack))) fuel
            s.ext).events ++ (pushProducts env ops iTrack (markDecayed (s.parts iTrack)) np
              particles (decayLoop env iTrack (markDecayed (s.parts iTrack)).pdgCode
          (momentumOf (markDecayed (s.parts iTrack))) fuel
            s.ext).ext).events), by simp, ?_⟩
        intro e he
        rcases List.mem_cons.mp he with rfl | he
        · exact Or.inl rfl
        · rcases List.mem_append.mp he with he | he
          · obtain ⟨np2, rfl⟩ := hd1 e he
            exact Or.inr (Or.inr ⟨hs, Or.inl ⟨np2, rfl⟩⟩)
          · refine Or.inr (Or.inr ⟨hs, Or.inr ⟨np, particles, ext0, _, h0, ?_, hext, he⟩⟩)
            exact List.mem_cons_of_mem _ (List.mem_append_left _ hmem)

theorem trackLoop_halted (env : Collaborators σ D F) (ops : FloatOps D F) (sw : SwitchOff)
    (fuel : Nat) (n iTrack : Nat) (s : State σ D F) (h : Halt) (hs : s.halt = some h) :
    trackLoop env ops sw fuel n iTrack s = s := by
  cases n with
  | zero => rfl
  | succ n => simp only [trackLoop, hs]

theorem trackLoop_succ (env : Collaborators σ D F) (ops : FloatOps D F) (sw : SwitchOff)
    (fuel : Nat) (n iTrack : Nat) (s : State σ D F) (hs : s.halt = none) :
    trackLoop env ops sw fuel (n + 1) iTrack s =
      trackLoop env ops sw fuel n (iTrack + 1) (processTrack env ops sw fuel iTrack s) := by
  simp only [trackLoop, hs]

/-- The loop over the stack leaves alone every record outside the indices it visits and
every record of a particle that is not selected. -/
theorem trackLoop_parts_frame (env : Collaborators σ D F) (ops : FloatOps D F)
    (sw : SwitchOff) (fuel : Nat) (n : Nat) : ∀ (iTrack : Nat) (s : State σ D F) (j : Nat),
    (j < iTrack ∨ iTrack + n ≤ j ∨ ¬ selected sw (s.parts j)) →
    (trackLoop env ops sw fuel n iTrack s).parts j = s.parts j := by
  induction n with
  | zero => intro iTrack s j _; rfl
  | succ n ih =>
    intro iTrack s j hj
    cases hh : s.halt with
    | some h => rw [trackLoop_halted _ _ _ _ _ _ _ h hh]
    | none =>
      rw [trackLoop_succ _ _ _ _ _ _ _ hh]
      have hstep : (processTrack env ops sw fuel iTrack s).parts j = s.parts j := by
        rw [processTrack_parts]
        have : ¬ (j = iTrack ∧ selected sw (s.parts iTrack)) := by
          rintro ⟨rfl, hsel⟩
          rcases hj with h | h | h
          · omega
          · omega
          · exact h hsel
        rw [if_neg this]
      rw [ih (iTrack + 1) _ j ?_, hstep]
      rw [hstep]
      rcases hj with h | h | h
      · exact Or.inl (by omega)
      · exact Or.inr (Or.inl (by omega))
      · exact Or.inr (Or.inr h)

/-- A loop over the stack that was not stopped has marked every selected particle among
the indices it visits. -/
theorem trackLoop_marks (env : Collaborators σ D F) (ops : FloatOps D F)
    (sw : SwitchOff) (fuel : Nat) (n : Nat) : ∀ (iTrack : Nat) (s : State σ D F) (j : Nat),
    (trackLoop env ops sw fuel n iTrack s).halt = none →
    iTrack ≤ j → j < iTrack + n → selected sw (s.parts j) →
    (trackLoop env ops sw fuel n iTrack s).parts j = markDecayed (s.parts j) := by
  induction n with
  | zero => intro iTrack s j _ h1 h2; omega
  | succ n ih =>
    intro iTrack s j hhalt h1 h2 hsel
    cases hh : s.halt with
    | some h =>
      rw [trackLoop_halted _ _ _ _ _ _ _ h hh] at hhalt
      rw [hh] at hhalt
      cases hhalt
    | none =>
      rw [trackLoop_succ _ _ _ _ _ _ _ hh] at hhalt ⊢
      by_cases hj : j = iTrack
      · subst hj
        rw [trackLoop_parts_frame _ _ _ _ _ _ _ _ (Or.inl (by omega)), processTrack_parts,
          if_pos ⟨rfl, hsel⟩]
      · have hstep : (processTrack env ops sw fuel iTrack s).parts j = s.parts j := by
          rw [processTrack_parts, if_neg (fun h => hj h.1)]
        rw [ih (iTrack + 1) _ j hhalt (by omega) (by omega) (by rw [hstep]; exact hsel), hstep]

/-- The events of the loop over the stack: each belongs to the processing of one of the
visited indices, on the record that index had when the loop started. -/
theorem trackLoop_log (env : Collaborators σ D F) (ops : FloatOps D F)
    (sw : SwitchOff) (fuel : Nat) (n : Nat) : ∀ (iTrack : Nat) (s : State σ D F),
    ∃ new : List (Event D F),
      (trackLoop env ops sw fuel n iTrack s).log = s.log ++ new ∧
      ∀ e ∈ new, ∃ c : Nat, iTrack ≤ c ∧ c < iTrack + n ∧
        StepEvent env ops sw c (s.parts c) new e := by
  induction n with
  | zero =>
    intro iTrack s
    exact ⟨[], by simp [trackLoop], by simp⟩
  | succ n ih =>
    intro iTrack s
    cases hh : s.halt with
    | some h =>
      rw [trackLoop_halted _ _ _ _ _ _ _ h hh]
      exact ⟨[], by simp, by simp⟩
    | none =>
      rw [trackLoop_succ _ _ _ _ _ _ _ hh]
      obtain ⟨new1, hlog1, hev1⟩ := processTrack_log env ops sw fuel iTrack s
      obtain ⟨new2, hlog2, hev2⟩ := ih (iTrack + 1) (processTrack env ops sw fuel iTrack s)
      refine ⟨new1 ++ new2, by rw [hlog2, hlog1, List.append_assoc], ?_⟩
      intro e he
      rcases List.mem_append.mp he with he | he
      · exact ⟨iTrack, le_refl _, by omega,
          StepEvent.mono _ _ _ _ _ _ _ _ (fun x hx => List.mem_append_left _ hx) (hev1 e he)⟩
      · obtain ⟨c, hc1, hc2, hc3⟩ := hev2 e he
        have hstep : (processTrack env ops sw fuel iTrack s).parts c = s.parts c := by
          rw [processTrack_parts, if_neg (fun h => by omega)]
        rw [hstep] at hc3
        exact ⟨c, by omega, by omega,
          StepEvent.mono _ _ _ _ _ _ _ _ (fun x hx => List.mem_append_right _ hx) hc3⟩

/-- Every event of `Generate` belongs to the processing of an index below the count of
primaries read at the start, on the record that index had at the start. -/
theorem Generate_log_mem (env : Collaborators σ D F) (ops : FloatOps D F) (sw : SwitchOff)
    (fuel : Nat) (ext : σ) (parts : Nat → TParticle D) (e : Event D F)
    (h : e ∈ (Generate env ops sw fuel ext parts).log) :
    ∃ c : Nat, (c : Int) < env.getNprimary ext ∧
      StepEvent env ops sw c (parts c) (Generate env ops sw fuel ext parts).log e := by
  obtain ⟨new, hlog, hev⟩ := trackLoop_log env ops sw fuel (env.getNprimary ext).toNat 0
    ⟨ext, parts, [], none⟩
  have hlog2 : (Generate env ops sw fuel ext parts).log = new := by
    simpa [Generate] using hlog
  rw [hlog2] at h ⊢
  obtain ⟨c, _, hc, hstep⟩ := hev e h
  exact ⟨c, by omega, hstep⟩

/-- An engine invocation recorded by `Generate` is for a selected particle. -/
theorem Generate_decay_mem (env : Collaborators σ D F) (ops : FloatOps D F) (sw : SwitchOff)
    (fuel : Nat) (ext : σ) (parts : Nat → TParticle D) (c : Nat) (pdg : Int)
    (mom : LorentzVector D) (np : Int)
    (h : Event.decay c pdg mom np ∈ (Generate env ops sw fuel ext parts).log) :
    (c : Int) < env.getNprimary ext ∧ selected sw (parts c) := by
  obtain ⟨c2, hc, hstep⟩ := Generate_log_mem _ _ _ _ _ _ _ h
  rcases hstep with h1 | ⟨_, h1⟩ | ⟨hs, ⟨_, h1⟩ | ⟨_, _, _, _, _, _, _, h1⟩⟩
  · cases h1
  · cases h1
  · cases h1
    exact ⟨hc, hs⟩
  · rcases pushLoop_events_kind _ _ _ _ _ _ _ _ _ _ _ h1 with
      ⟨_, _, _, h⟩ | ⟨_, _, h⟩ | ⟨_, h⟩ | ⟨_, h⟩ <;> cases h

/-- A push recorded by `Generate` is for a selected particle and comes from the loop
over the products of an answer the engine gave for that particle. -/
theorem Generate_push_mem (env : Collaborators σ D F) (ops : FloatOps D F) (sw : SwitchOff)
    (fuel : Nat) (ext : σ) (parts : Nat → TParticle D) (c k : Nat) (args : PushArgs F)
    (nt : Int)
    (h : Event.push c k args nt ∈ (Generate env ops sw fuel ext parts).log) :
    (c : Int) < env.getNprimary ext ∧ selected sw (parts c) ∧
    ∃ (np : Int) (particles : Nat → TParticle D) (ext0 ext1 : σ),
      0 ≤ np ∧
      Event.decay c (parts c).pdgCode (momentumOf (parts c)) np ∈
        (Generate env ops sw fuel ext parts).log ∧
      env.decay ext0 (parts c).pdgCode (momentumOf (parts c)) = (ext1, np, particles) ∧
      Event.push c k args nt ∈
        (pushProducts env ops c (markDecayed (parts c)) np particles ext1).events := by
  obtain ⟨c2, hc, hstep⟩ := Generate_log_mem _ _ _ _ _ _ _ h
  rcases hstep with h1 | ⟨_, h1⟩ | ⟨hs, ⟨_, h1⟩ | ⟨np, particles, ext0, ext1, h0, hd, he, h1⟩⟩
  · cases h1
  · cases h1
  · cases h1
  · obtain ⟨rfl, _⟩ := pushLoop_push_mem _ _ _ _ _ _ _ _ _ _ _ _ _ _ h1
    exact ⟨hc, hs, np, particles, ext0, ext1, h0, hd, he, h1⟩

/-- The record of a particle that is not selected is the same after `Generate`. -/
theorem Generate_parts_frame (env : Collaborators σ D F) (ops : FloatOps D F) (sw : SwitchOff)
    (fuel : Nat) (ext : σ) (parts : Nat → TParticle D) (i : Nat)
    (h : ¬ selected sw (parts i)) :
    (Generate env ops sw fuel ext parts).parts i = parts i :=
  trackLoop_parts_frame env ops sw fuel _ 0 ⟨ext, parts, [], none⟩ i (Or.inr (Or.inr h))

/-- After a pass of `Generate` that was not stopped, the record of a selected particle
below the count of primaries is the marked one. -/
theorem Generate_parts_marked (env : Collaborators σ D F) (ops : FloatOps D F)
    (sw : SwitchOff) (fuel : Nat) (ext : σ) (parts : Nat → TParticle D) (i : Nat)
    (hi : (i : Int) < env.getNprimary ext) (h : selected sw (parts i))
    (hdone : (Generate env ops sw fuel ext parts).halt = none) :
    (Generate env ops sw fuel ext parts).parts i = markDecayed (parts i) :=
  trackLoop_marks env ops sw fuel _ 0 ⟨ext, parts, [], none⟩ i hdone (Nat.zero_le _)
    (by omega) h

end TrackLoop

/-! ## Completion of a pass -/

section Completion

variable {σ D F : Type}

/-- The retry loop accepts an answer when some invocation within its budget reports a
count that is not negative. -/
theorem decayLoop_result_isSome (env : Collaborators σ D F) (iTrack : Nat) (pdg : Int)
    (mom : LorentzVector D) (fuel : Nat) : ∀ (ext : σ),
    (∃ K : Nat, K < fuel ∧ 0 ≤ (decayAnswer env pdg mom K ext).2.1) →
    (decayLoop env iTrack pdg mom fuel ext).result ≠ none := by
  induction fuel with
  | zero =>
    rintro ext ⟨K, hK, _⟩
    omega
  | succ fuel ih =>
    rintro ext ⟨K, hK, hok⟩
    by_cases h0 : (env.decay ext pdg mom).2.1 < 0
    · simp only [decayLoop, h0, if_true]
      cases K with
      | zero =>
        have : 0 ≤ (env.decay ext pdg mom).2.1 := hok
        omega
      | succ K => exact ih _ ⟨K, by omega, hok⟩
    · simp [decayLoop, h0]

/-- The loop over the products is not stopped when every first-mother index minus 1 it
meets is below the size of `pParent`. -/
theorem pushLoop_halt_none (env : Collaborators σ D F) (ops : FloatOps D F) (iTrack : Nat)
    (part : TParticle D) (particles : Nat → TParticle D) (trackIt : List Int)
    (n : Nat) : ∀ (i : Nat) (pp : List Int) (ext : σ),
    (∀ k : Nat, i ≤ k → k < i + n → jpaOf (particles k) < pp.length) →
    (pushLoop env ops iTrack part particles trackIt n i pp ext).halt = none := by
  induction n with
  | zero => intro i pp ext _; rfl
  | succ n ih =>
    intro i pp ext hr
    cases hres : resolveParent iTrack pp (jpaOf (particles i)) with
    | none =>
      exfalso
      have hb := hr i (le_refl _) (by omega)
      unfold resolveParent at hres
      split at hres
      · rw [List.getElem?_eq_none_iff] at hres
        omega
      · cases hres
    | some iparent =>
      by_cases hnt : (env.pushTrack ext
          (pushArgs ops part (particles i) (trackIt.getD i 0) iparent)).2 < 0
      · rw [pushLoop_succ_fail _ _ _ _ _ _ _ _ _ _ _ hres hnt]
        exact ih (i + 1) pp _ (fun k h1 h2 => hr k (by omega) (by omega))
      · rw [pushLoop_succ_ok _ _ _ _ _ _ _ _ _ _ _ hres hnt]
        exact ih (i + 1) _ _ (fun k h1 h2 => by
          rw [List.length_set]
          exact hr k (by omega) (by omega))

/-- The body of the loop over the stack does not stop a pass when the retry loop gets an
answer within its budget and the answer refers to mothers inside the list. -/
theorem processTrack_halt_none (env : Collaborators σ D F) (ops : FloatOps D F)
    (sw : SwitchOff) (fuel : Nat) (iTrack : Nat) (s : State σ D F)
    (hs : s.halt = none)
    (hresp : ∀ (e : σ) (pdg : Int) (mom : LorentzVector D),
      ∃ K : Nat, K < fuel ∧ 0 ≤ (decayAnswer env pdg mom K e).2.1)
    (hrange : ∀ (e : σ) (pdg : Int) (mom : LorentzVector D) (k : Nat),
      1 ≤ k → (k : Int) < (env.decay e pdg mom).2.1 →
      jpaOf ((env.decay e pdg mom).2.2 k) < (env.decay e pdg mom).2.1) :
    (processTrack env ops sw fuel iTrack s).halt = none := by
  unfold processTrack
  by_cases hsw : passesSwitch sw (GetFlavour (s.parts iTrack).pdgCode) = false
  · simp [hsw, hs]
  · have hsw2 : passesSwitch sw (GetFlavour (s.parts iTrack).pdgCode) = true := by
      simpa using hsw
    by_cases hel : (s.parts iTrack).statusCode ≠ 1 ∨ (s.parts iTrack).nDaughters > 0
    · simp only [hsw2, hel, if_true, Bool.true_eq_false, if_false]
      exact hs
    · simp only [hsw2, hel, if_false, Bool.true_eq_false]
      have hne := decayLoop_result_isSome env iTrack (markDecayed (s.parts iTrack)).pdgCode
        (momentumOf (markDecayed (s.parts iTrack))) fuel s.ext (hresp _ _ _)
      obtain ⟨_, hd2⟩ := decayLoop_events env iTrack (markDecayed (s.parts iTrack)).pdgCode
        (momentumOf (markDecayed (s.parts iTrack))) fuel s.ext
      cases hres : (decayLoop env iTrack (markDecayed (s.parts iTrack)).pdgCode
          (momentumOf (markDecayed (s.parts iTrack))) fuel s.ext).result with
      | none => exact absurd hres hne
      | some r =>
        obtain ⟨np, particles⟩ := r
        obtain ⟨h0, _, ext0, hext⟩ := hd2 np particles hres
        show (pushProducts env ops iTrack (markDecayed (s.parts iTrack)) np particles _).halt
          = none
        apply pushLoop_halt_none
        intro k h1 h2
        have hr := hrange ext0 (markDecayed (s.parts iTrack)).pdgCode
          (momentumOf (markDecayed (s.parts iTrack))) k h1
        rw [hext] at hr
        simp only [mkPParent, List.length_replicate]
        have := hr (by simp only; omega)
        simp only at this
        omega

/-- A pass of `Generate` is completed, with any budget `fuel` for the retry loop such
that the engine, from every state, reports a count that is not negative within `fuel`
invocations, provided the answers of the engine refer to mothers inside the list. -/
theorem Generate_completes (env : Collaborators σ D F) (ops : FloatOps D F)
    (sw : SwitchOff) (fuel : Nat) (ext : σ) (parts : Nat → TParticle D)
    (hresp : ∀ (e : σ) (pdg : Int) (mom : LorentzVector D),
      ∃ K : Nat, K < fuel ∧ 0 ≤ (decayAnswer env pdg mom K e).2.1)
    (hrange : ∀ (e : σ) (pdg : Int) (mom : LorentzVector D) (k : Nat),
      1 ≤ k → (k : Int) < (env.decay e pdg mom).2.1 →
      jpaOf ((env.decay e pdg mom).2.2 k) < (env.decay e pdg mom).2.1) :
    (Generate env ops sw fuel ext parts).halt = none := by
  have key : ∀ (n iTrack : Nat) (s : State σ D F), s.halt = none →
      (trackLoop env ops sw fuel n iTrack s).halt = none := by
    intro n
    induction n with
    | zero => intro iTrack s hs; exact hs
    | succ n ih =>
      intro iTrack s hs
      rw [trackLoop_succ _ _ _ _ _ _ _ hs]
      exact ih _ _ (processTrack_halt_none env ops sw fuel iTrack s hs hresp hrange)
  exact key _ 0 _ rfl

end Completion

/-! ## Selection of the candidates (lines 114-139) -/

section Selection

variable {σ D F : Type}

/-- C4: `Generate` never invokes the engine for a particle whose status code is not 1 or
which has daughters, pushes nothing for it, and leaves its status code, done bit and
transport bit (the whole record) as they were, whatever the species switch. -/
theorem ineligible_particle_untouched (env : Collaborators σ D F) (ops : FloatOps D F)
    (sw : SwitchOff) (fuel : Nat) (ext : σ) (parts : Nat → TParticle D) (i : Nat)
    (h : (parts i).statusCode ≠ 1 ∨ (parts i).nDaughters > 0) :
    (∀ (pdg : Int) (mom : LorentzVector D) (np : Int),
      Event.decay i pdg mom np ∉ (Generate env ops sw fuel ext parts).log) ∧
    (∀ (k : Nat) (args : PushArgs F) (nt : Int),
      Event.push i k args nt ∉ (Generate env ops sw fuel ext parts).log) ∧
    ((Generate env ops sw fuel ext parts).parts i).statusCode = (parts i).statusCode ∧
    ((Generate env ops sw fuel ext parts).parts i).kDoneBit = (parts i).kDoneBit ∧
    ((Generate env ops sw fuel ext parts).parts i).kTransportBit = (parts i).kTransportBit ∧
    (Generate env ops sw fuel ext parts).parts i = parts i := by
  have hns : ¬ selected sw (parts i) := by
    rintro ⟨_, a, b⟩
    rcases h with h | h
    · exact h a
    · exact b h
  have hp := Generate_parts_frame env ops sw fuel ext parts i hns
  refine ⟨?_, ?_, by rw [hp], by rw [hp], by rw [hp], hp⟩
  · intro pdg mom np hmem
    exact hns (Generate_decay_mem _ _ _ _ _ _ _ _ _ _ hmem).2
  · intro k args nt hmem
    exact hns (Generate_push_mem _ _ _ _ _ _ _ _ _ _ hmem).2.1

/-- Witness for C4: a stack of one particle of status code 2; the record is unchanged. -/
theorem ineligible_particle_untouched_witness :
    (sampleDecayed.statusCode ≠ 1 ∨ sampleDecayed.nDaughters > 0) ∧
    (Generate (sampleEnv 0 4 answer002 0) intOps SwitchOff.kAllPart 1 ⟨1, 0, 0⟩
      (fun _ => sampleDecayed)).parts 0 = sampleDecayed :=
  ⟨by decide,
   (ineligible_particle_untouched (sampleEnv 0 4 answer002 0) intOps SwitchOff.kAllPart 1
     ⟨1, 0, 0⟩ (fun _ => sampleDecayed) 0 (by decide)).2.2.2.2.2⟩

/-- C8 (amended): with the default species switch, a stack of one particle (type 511, status 1, no
daughters, stack index 0) and an engine answer of count 3 (the reserved entry and the
products 1 and 2 with first-mother fields 0, 0 and status codes 2, 1), `Generate` makes
exactly two pushes: product 1 with track flag 0 and product 2 with track flag 1, both with
parent 0, each at the `Float_t` conversion of the sum of the `Float_t` copy of the
candidate's origin (`origin0`) and the product's position, which is the `Float_t`
conversion of the candidate's origin plus the product's position when `Float_t` holds
the candidate's origin. -/
theorem single_beauty_candidate (env : Collaborators σ D F) (ops : FloatOps D F)
    (fuel : Nat) (ext ext2 : σ) (parts particles : Nat → TParticle D)
    (hn : env.getNprimary ext = 1)
    (hpdg : (parts 0).pdgCode = 511) (hst : (parts 0).statusCode = 1)
    (hnd : (parts 0).nDaughters = 0) (hfuel : 0 < fuel)
    (hdec : env.decay ext 511 (momentumOf (parts 0)) = (ext2, 3, particles))
    (hm1 : (particles 1).firstMother = 0) (hm2 : (particles 2).firstMother = 0)
    (hs1 : (particles 1).statusCode = 2) (hs2 : (particles 2).statusCode = 1) :
    ∃ (a1 a2 : PushArgs F) (n1 n2 : Int),
      pushesOf (Generate env ops defaultSwitchOff fuel ext parts).log =
        [(0, 1, a1, n1), (0, 2, a2, n2)] ∧
      a1.done = 0 ∧ a2.done = 1 ∧ a1.parent = 0 ∧ a2.parent = 0 ∧
      a1.vpos =
        (ops.toFloat (ops.addD (ops.toDouble (ops.toFloat (parts 0).vx)) (particles 1).vx),
         ops.toFloat (ops.addD (ops.toDouble (ops.toFloat (parts 0).vy)) (particles 1).vy),
         ops.toFloat (ops.addD (ops.toDouble (ops.toFloat (parts 0).vz)) (particles 1).vz)) ∧
      a2.vpos =
        (ops.toFloat (ops.addD (ops.toDouble (ops.toFloat (parts 0).vx)) (particles 2).vx),
         ops.toFloat (ops.addD (ops.toDouble (ops.toFloat (parts 0).vy)) (particles 2).vy),
         ops.toFloat (ops.addD (ops.toDouble (ops.toFloat (parts 0).vz)) (particles 2).vz)) ∧
      ((ops.toDouble (ops.toFloat (parts 0).vx) = (parts 0).vx ∧
        ops.toDouble (ops.toFloat (parts 0).vy) = (parts 0).vy ∧
        ops.toDouble (ops.toFloat (parts 0).vz) = (parts 0).vz) →
        a1.vpos =
          (ops.toFloat (ops.addD (parts 0).vx (particles 1).vx),
           ops.toFloat (ops.addD (parts 0).vy (particles 1).vy),
           ops.toFloat (ops.addD (parts 0).vz (particles 1).vz)) ∧
        a2.vpos =
          (ops.toFloat (ops.addD (parts 0).vx (particles 2).vx),
           ops.toFloat (ops.addD (parts 0).vy (particles 2).vy),
           ops.toFloat (ops.addD (parts 0).vz (particles 2).vz))) := by
  obtain ⟨f, rfl⟩ : ∃ f, fuel = f + 1 := ⟨fuel - 1, by omega⟩
  have hfl : GetFlavour 511 = 5 := by decide
  have hel : ¬ ((parts 0).statusCode ≠ 1 ∨ (parts 0).nDaughters > 0) := by
    rw [hst, hnd]; decide
  have e2 : ((3 : Int) - 1).toNat = 2 := rfl
  have htr : mkTrackIt 3 particles = [0, 0, 1] := by
    simp [mkTrackIt, trackItLoop, hs1, hs2]
  have hdec2 : env.decay ext 511
      ⟨(parts 0).px, (parts 0).py, (parts 0).pz, (parts 0).energy⟩ = (ext2, 3, particles) :=
    hdec
  have hlog : (Generate env ops defaultSwitchOff (f + 1) ext parts).log =
      Event.fetch 0 :: Event.decay 0 511
        ⟨(parts 0).px, (parts 0).py, (parts 0).pz, (parts 0).energy⟩ 3 ::
        (pushProducts env ops 0 (markDecayed (parts 0)) 3 particles ext2).events := by
    simp [Generate, hn, trackLoop, processTrack, hpdg, hfl, defaultSwitchOff, passesSwitch,
      hel, decayLoop, markDecayed, momentumOf, hdec2]
  rw [hlog]
  have rA : ∀ pp : List Int,
      resolveParent 0 pp (jpaOf (particles 1)) = some 0 := by
    intro pp
    have j1 : jpaOf (particles 1) = -1 := by
      unfold jpaOf
      rw [hm1]
      decide
    simp [resolveParent, j1]
  have rB : ∀ pp : List Int,
      resolveParent 0 pp (jpaOf (particles 2)) = some 0 := by
    intro pp
    have j2 : jpaOf (particles 2) = -1 := by
      unfold jpaOf
      rw [hm2]
      decide
    simp [resolveParent, j2]
  simp only [pushProducts, e2, htr, pushLoop, rA, rB]
  by_cases c1 : (env.pushTrack ext2
      (pushArgs ops (markDecayed (parts 0)) (particles 1) ([0, 0, 1].getD 1 0) 0)).2 < 0
  · simp only [c1, if_true]
    split <;> refine ⟨_, _, _, _, rfl, rfl, rfl, rfl, rfl, rfl, rfl, ?_⟩ <;>
      (rintro ⟨hx, hy, hz⟩
       simp only [pushArgs, origin0, markDecayed, hx, hy, hz, and_self])
  · simp only [c1, if_false]
    split <;> refine ⟨_, _, _, _, rfl, rfl, rfl, rfl, rfl, rfl, rfl, ?_⟩ <;>
      (rintro ⟨hx, hy, hz⟩
       simp only [pushArgs, origin0, markDecayed, hx, hy, hz, and_self])

/-- Witness for C8 (amended): the sample stack with one candidate, produced at
(1000, 2000, 3000), which `Float_t` holds, and the engine answer of two products, under
the rounding conversion. -/
theorem single_beauty_candidate_witness :
    ∃ (a1 a2 : PushArgs Int) (n1 n2 : Int),
      pushesOf (Generate (sampleEnv 0 3 answer00 0) float32Ops defaultSwitchOff 1 ⟨1, 0, 0⟩
        (fun _ => sampleCandidate)).log = [(0, 1, a1, n1), (0, 2, a2, n2)] ∧
      a1.done = 0 ∧ a2.done = 1 ∧ a1.parent = 0 ∧ a2.parent = 0 ∧
      a1.vpos = (roundToFloat (1000 + 10), roundToFloat (2000 + 20),
        roundToFloat (3000 + 30)) ∧
      a2.vpos = (roundToFloat (1000 + 20), roundToFloat (2000 + 40),
        roundToFloat (3000 + 60)) := by
  obtain ⟨a1, a2, n1, n2, h1, h2, h3, h4, h5, _, _, h8⟩ :=
    single_beauty_candidate (sampleEnv 0 3 answer00 0) float32Ops 1 ⟨1, 0, 0⟩ ⟨1, 0, 1⟩
      (fun _ => sampleCandidate) answer00 rfl rfl rfl rfl (by decide) rfl rfl rfl rfl rfl
  have h9 := h8 ⟨by decide, by decide, by decide⟩
  exact ⟨a1, a2, n1, n2, h1, h2, h3, h4, h5, h9.1, h9.2⟩

/-- Counterexample to C8: the scenario of C8 with the candidate produced at
`x = 16777217` and products with position offset 1.  Both products are pushed at
`x = 16777216`, while the candidate's origin plus the offset is 16777218, a value that
`Float_t` holds. -/
theorem single_beauty_candidate_counterexample :
    (wideCandidate.pdgCode, wideCandidate.statusCode, wideCandidate.nDaughters) =
      (511, 1, 0) ∧
    ((answerUnit 1).firstMother, (answerUnit 2).firstMother, (answerUnit 1).statusCode,
      (answerUnit 2).statusCode) = (0, 0, 2, 1) ∧
    (pushesOf (Generate (sampleEnv 0 3 answerUnit 0) float32Ops defaultSwitchOff 1 ⟨1, 0, 0⟩
      (fun _ => wideCandidate)).log).map
        (fun p => (p.2.1, p.2.2.1.done, p.2.2.1.parent, p.2.2.1.vpos)) =
      [(1, 0, 0, (16777216, 0, 0)), (2, 1, 0, (16777216, 0, 0))] ∧
    wideCandidate.vx + (answerUnit 1).vx = 16777218 ∧
    roundToFloat (wideCandidate.vx + (answerUnit 1).vx) = 16777218 := by
  refine ⟨?_, ?_, ?_, ?_, ?_⟩
  · decide
  · decide
  · decide
  · decide
  · decide

/-- C9: after a pass of `Generate` that was not stopped, every particle below the count
of primaries that passes the species switch, has status code 1 and has no daughters has
status code 11, the done bit set and the transport bit cleared, whatever the engine
returned; and when every count the engine reported for it is at most 1, nothing is pushed
for it. -/
theorem selected_particle_marked (env : Collaborators σ D F) (ops : FloatOps D F)
    (sw : SwitchOff) (fuel : Nat) (ext : σ) (parts : Nat → TParticle D) (i : Nat)
    (hi : (i : Int) < env.getNprimary ext)
    (hsw : sw = SwitchOff.kAllPart ∨
      (sw = SwitchOff.kBeautyPart ∧ GetFlavour (parts i).pdgCode = 5) ∨
      (sw = SwitchOff.kCharmPart ∧ GetFlavour (parts i).pdgCode = 4))
    (hst : (parts i).statusCode = 1) (hnd : (parts i).nDaughters = 0)
    (hdone : (Generate env ops sw fuel ext parts).halt = none) :
    ((Generate env ops sw fuel ext parts).parts i).statusCode = 11 ∧
    ((Generate env ops sw fuel ext parts).parts i).kDoneBit = true ∧
    ((Generate env ops sw fuel ext parts).parts i).kTransportBit = false ∧
    ((∀ (pdg : Int) (mom : LorentzVector D) (np : Int),
        Event.decay i pdg mom np ∈ (Generate env ops sw fuel ext parts).log → np ≤ 1) →
      ∀ (k : Nat) (args : PushArgs F) (nt : Int),
        Event.push i k args nt ∉ (Generate env ops sw fuel ext parts).log) := by
  have hsel : selected sw (parts i) := by
    refine ⟨?_, hst, by omega⟩
    rcases hsw with rfl | ⟨rfl, h⟩ | ⟨rfl, h⟩
    · rfl
    · simp [passesSwitch, h]
    · simp [passesSwitch, h]
  have hp := Generate_parts_marked env ops sw fuel ext parts i hi hsel hdone
  refine ⟨by rw [hp]; rfl, by rw [hp]; rfl, by rw [hp]; rfl, ?_⟩
  intro hcount k args nt hmem
  obtain ⟨_, _, np, particles, ext0, ext1, _, hd, _, hpush⟩ :=
    Generate_push_mem _ _ _ _ _ _ _ _ _ _ hmem
  obtain ⟨_, h1, h2, _⟩ := pushProducts_push_mem _ _ _ _ _ _ _ _ _ _ _ hpush
  have := hcount _ _ _ hd
  omega

/-- Witness for C9: the engine answers with the count 1; the candidate is marked and the
log holds the lookup and the engine invocation only. -/
theorem selected_particle_marked_witness :
    (Generate (sampleEnv 0 1 answer002 0) intOps defaultSwitchOff 1 ⟨1, 0, 0⟩
      (fun _ => sampleCandidate)).halt = none ∧
    (Generate (sampleEnv 0 1 answer002 0) intOps defaultSwitchOff 1 ⟨1, 0, 0⟩
      (fun _ => sampleCandidate)).log =
      [Event.fetch 0, Event.decay 0 511 ⟨1, 2, 3, 4⟩ 1] ∧
    ((Generate (sampleEnv 0 1 answer002 0) intOps defaultSwitchOff 1 ⟨1, 0, 0⟩
      (fun _ => sampleCandidate)).parts 0).statusCode = 11 :=
  ⟨by decide, by decide,
   (selected_particle_marked (sampleEnv 0 1 answer002 0) intOps defaultSwitchOff 1 ⟨1, 0, 0⟩
     (fun _ => sampleCandidate) 0 (by decide) (Or.inr (Or.inl ⟨rfl, by decide⟩))
     (by decide) (by decide) (by decide)).1⟩

/-- C10: a particle rejected by the species switch (flavour other than 5 under
`kBeautyPart`, other than 4 under `kCharmPart`) causes no engine invocation and no push,
and its status code, done bit and transport bit (the whole record) stay as they were; a
particle the switch lets through (any particle under `kAllPart`) goes on to the check of
line 132: when it has status code 1 and no daughters and the pass is not stopped, it is
marked as decayed. -/
theorem species_switch_frame (env : Collaborators σ D F) (ops : FloatOps D F)
    (sw : SwitchOff) (fuel : Nat) (ext : σ) (parts : Nat → TParticle D) (i : Nat) :
    (((sw = SwitchOff.kBeautyPart ∧ GetFlavour (parts i).pdgCode ≠ 5) ∨
      (sw = SwitchOff.kCharmPart ∧ GetFlavour (parts i).pdgCode ≠ 4)) →
      (∀ (pdg : Int) (mom : LorentzVector D) (np : Int),
        Event.decay i pdg mom np ∉ (Generate env ops sw fuel ext parts).log) ∧
      (∀ (k : Nat) (args : PushArgs F) (nt : Int),
        Event.push i k args nt ∉ (Generate env ops sw fuel ext parts).log) ∧
      ((Generate env ops sw fuel ext parts).parts i).statusCode = (parts i).statusCode ∧
      ((Generate env ops sw fuel ext parts).parts i).kDoneBit = (parts i).kDoneBit ∧
      ((Generate env ops sw fuel ext parts).parts i).kTransportBit =
        (parts i).kTransportBit ∧
      (Generate env ops sw fuel ext parts).parts i = parts i) ∧
    ((sw = SwitchOff.kAllPart ∨
      (sw = SwitchOff.kBeautyPart ∧ GetFlavour (parts i).pdgCode = 5) ∨
      (sw = SwitchOff.kCharmPart ∧ GetFlavour (parts i).pdgCode = 4)) →
      (i : Int) < env.getNprimary ext →
      (parts i).statusCode = 1 → (parts i).nDaughters = 0 →
      (Generate env ops sw fuel ext parts).halt = none →
      (Generate env ops sw fuel ext parts).parts i = markDecayed (parts i)) := by
  constructor
  · intro hrej
    have hns : ¬ selected sw (parts i) := by
      rintro ⟨a, _, _⟩
      rcases hrej with ⟨rfl, h⟩ | ⟨rfl, h⟩
      · simp [passesSwitch, h] at a
      · simp [passesSwitch, h] at a
    have hp := Generate_parts_frame env ops sw fuel ext parts i hns
    refine ⟨?_, ?_, by rw [hp], by rw [hp], by rw [hp], hp⟩
    · intro pdg mom np hmem
      exact hns (Generate_decay_mem _ _ _ _ _ _ _ _ _ _ hmem).2
    · intro k args nt hmem
      exact hns (Generate_push_mem _ _ _ _ _ _ _ _ _ _ hmem).2.1
  · intro hsw hi hst hnd hdone
    have hsel : selected sw (parts i) := by
      refine ⟨?_, hst, by omega⟩
      rcases hsw with rfl | ⟨rfl, h⟩ | ⟨rfl, h⟩
      · rfl
      · simp [passesSwitch, h]
      · simp [passesSwitch, h]
    exact Generate_parts_marked env ops sw fuel ext parts i hi hsel hdone

/-- Witness for C10: under `kCharmPart` the sample candidate of type 511 (flavour 5) is
rejected; the log holds its lookup only and the record is unchanged. -/
theorem species_switch_frame_witness :
    GetFlavour sampleCandidate.pdgCode ≠ 4 ∧
    (Generate (sampleEnv 0 4 answer002 0) intOps SwitchOff.kCharmPart 1 ⟨1, 0, 0⟩
      (fun _ => sampleCandidate)).log = [Event.fetch 0] ∧
    (Generate (sampleEnv 0 4 answer002 0) intOps SwitchOff.kCharmPart 1 ⟨1, 0, 0⟩
      (fun _ => sampleCandidate)).parts 0 = sampleCandidate :=
  ⟨by decide, by decide,
   ((species_switch_frame (sampleEnv 0 4 answer002 0) intOps SwitchOff.kCharmPart 1 ⟨1, 0, 0⟩
     (fun _ => sampleCandidate) 0).1 (Or.inr ⟨rfl, by decide⟩)).2.2.2.2.2⟩

end Selection

/-! ## The flavour of a type code (lines 223-242) -/

section Flavour

/-- The absolute value taken by `GetFlavour` for a code above the least 32-bit integer
is the magnitude of the code. -/
theorem abs32_eq (c : Int) (h1 : -2147483648 < c) (h2 : c < 2147483648) :
    0 ≤ abs32 c ∧ abs32 c < 2147483648 ∧ (abs32 c = c ∨ abs32 c = -c) := by
  unfold abs32 wrap32
  split
  · omega
  · omega

/-- The four reductions of `GetFlavour` bring a value that is not negative into the
range from 0 to 10. -/
theorem GetFlavour_range_of_abs (c : Int) (ha : 0 ≤ abs32 c) :
    0 ≤ GetFlavour c ∧ GetFlavour c ≤ 10 := by
  unfold GetFlavour
  simp only []
  generalize abs32 c = a at ha
  have m1 : ∀ x : Int, 0 ≤ x → Int.tmod x 100000 = x % 100000 :=
    fun x hx => Int.tmod_eq_emod hx (by norm_num)
  have m2 : ∀ x : Int, 0 ≤ x → Int.tmod x 10000 = x % 10000 :=
    fun x hx => Int.tmod_eq_emod hx (by norm_num)
  have d1 : ∀ x : Int, 0 ≤ x → Int.tdiv x 100 = x / 100 :=
    fun x hx => Int.tdiv_eq_ediv hx (by norm_num)
  have d2 : ∀ x : Int, 0 ≤ x → Int.tdiv x 10 = x / 10 :=
    fun x hx => Int.tdiv_eq_ediv hx (by norm_num)
  obtain ⟨b, hb, hb0, hb1⟩ : ∃ b : Int,
      b = (if a > 100000 then Int.tmod a 100000 else a) ∧ 0 ≤ b ∧ b ≤ 100000 := by
    refine ⟨_, rfl, ?_, ?_⟩ <;> split <;> first | omega | (rw [m1 a ha]; omega)
  rw [← hb]
  obtain ⟨d, hd, hd0, hd1⟩ : ∃ d : Int,
      d = (if b > 10000 then Int.tmod b 10000 else b) ∧ 0 ≤ d ∧ d ≤ 10000 := by
    refine ⟨_, rfl, ?_, ?_⟩ <;> split <;> first | omega | (rw [m2 b hb0]; omega)
  rw [← hd]
  obtain ⟨e, he, he0, he1⟩ : ∃ e : Int,
      e = (if d > 10 then Int.tdiv d 100 else d) ∧ 0 ≤ e ∧ e ≤ 100 := by
    refine ⟨_, rfl, ?_, ?_⟩ <;> split <;> first | omega | (rw [d1 d hd0]; omega)
  rw [← he]
  split
  · rw [d2 e he0]; omega
  · omega

/-- The reductions of `GetFlavour` leave a value from 0 to 10 as it is. -/
theorem GetFlavour_of_small (r : Int) (h0 : 0 ≤ r) (h1 : r ≤ 10) : GetFlavour r = r := by
  have ha : abs32 r = r := by
    unfold abs32
    rw [if_pos h0]
  unfold GetFlavour
  simp only [ha]
  have c1 : ¬ r > 100000 := by omega
  have c2 : ¬ r > 10000 := by omega
  have c3 : ¬ r > 10 := by omega
  simp only [c1, c2, c3, if_false]

/-- The result of `GetFlavour` is a function of the absolute value taken at line 233. -/
theorem GetFlavour_congr (c d : Int) (h : abs32 c = abs32 d) : GetFlavour c = GetFlavour d := by
  unfold GetFlavour
  rw [h]

/-- C11: `GetFlavour` gives 5 for the code 511, 4 for 421 and 3 for 321. -/
theorem flavour_of_reference_codes :
    GetFlavour 511 = 5 ∧ GetFlavour 421 = 4 ∧ GetFlavour 321 = 3 := by
  refine ⟨?_, ?_, ?_⟩
  · decide
  · decide
  · decide

/-- C12: for every signed 32-bit code `c`, `GetFlavour` gives the same value for the
32-bit negation of `c` as for `c`. -/
theorem flavour_sign_independent (c : Int) (h1 : -2147483648 ≤ c) (h2 : c < 2147483648) :
    GetFlavour (wrap32 (-c)) = GetFlavour c := by
  apply GetFlavour_congr
  unfold abs32 wrap32
  split <;> split <;> omega

/-- Witness for C12: the codes 511 and -511, and the least 32-bit integer, whose 32-bit
negation is itself. -/
theorem flavour_sign_independent_witness :
    wrap32 (-511) = -511 ∧ GetFlavour (-511) = 5 ∧ GetFlavour 511 = 5 ∧
    GetFlavour (wrap32 (-511)) = GetFlavour 511 ∧
    GetFlavour (wrap32 (- -2147483648)) = GetFlavour (-2147483648) :=
  ⟨by decide, by decide, by decide,
   flavour_sign_independent 511 (by decide) (by decide),
   flavour_sign_independent (-2147483648) (by decide) (by decide)⟩

/-- Counterexample to C13: the codes 10 and 1000 give 10, which is not a single digit. -/
theorem flavour_digit_counterexample :
    GetFlavour 10 = 10 ∧ GetFlavour 1000 = 10 ∧ ¬ (GetFlavour 10 ≤ 9) := by
  refine ⟨?_, ?_, ?_⟩
  · decide
  · decide
  · decide

/-- C13 (amended): for every signed 32-bit code above the least 32-bit integer, the value
returned by `GetFlavour` is an integer from 0 to 10. -/
theorem flavour_range (c : Int) (h1 : -2147483648 < c) (h2 : c < 2147483648) :
    0 ≤ GetFlavour c ∧ GetFlavour c ≤ 10 :=
  GetFlavour_range_of_abs c (abs32_eq c h1 h2).1

/-- Witness for C13 (amended): the code -1000, whose flavour is 10. -/
theorem flavour_range_witness :
    GetFlavour (-1000) = 10 ∧ 0 ≤ GetFlavour (-1000) ∧ GetFlavour (-1000) ≤ 10 :=
  ⟨by decide, flavour_range (-1000) (by decide) (by decide)⟩

/-- C19: for every signed 32-bit code `c`, applying `GetFlavour` to its own result gives
that result again. -/
theorem flavour_idempotent (c : Int) (h1 : -2147483648 ≤ c) (h2 : c < 2147483648) :
    GetFlavour (GetFlavour c) = GetFlavour c := by
  by_cases hmin : c = -2147483648
  · subst hmin
    decide
  · obtain ⟨r0, r1⟩ := GetFlavour_range_of_abs c (abs32_eq c (by omega) h2).1
    exact GetFlavour_of_small _ r0 r1

/-- Witness for C19: the code 5122, whose flavour is 5, and the least 32-bit integer. -/
theorem flavour_idempotent_witness :
    GetFlavour 5122 = 5 ∧ GetFlavour (GetFlavour 5122) = GetFlavour 5122 ∧
    GetFlavour (GetFlavour (-2147483648)) = GetFlavour (-2147483648) :=
  ⟨by decide, flavour_idempotent 5122 (by decide) (by decide),
   flavour_idempotent (-2147483648) (by decide) (by decide)⟩

end Flavour

/-! ## The user decay table (lines 245-265) -/

section DecayTable

theorem String.length_eq_zero_iff_eq_empty (p : String) : p.length = 0 ↔ p = "" := by
  constructor
  · intro h
    cases p with
    | mk l =>
      have hl : l = [] := List.length_eq_zero.mp h
      subst hl
      rfl
  · rintro rfl
    rfl

/-- C14: `SetUserDecayTable` returns false exactly when the path is given, is not empty
and can not be accessed; the stored path and the flag are then what they were. -/
theorem decay_table_failure (accessPathName : String → Bool) (path : Option String)
    (cfg : DecayTableConfig) :
    ((SetUserDecayTable accessPathName path cfg).1 = false ↔
      ∃ p : String, path = some p ∧ p ≠ "" ∧ accessPathName p = true) ∧
    ((SetUserDecayTable accessPathName path cfg).1 = false →
      (SetUserDecayTable accessPathName path cfg).2 = cfg ∧
      (SetUserDecayTable accessPathName path cfg).2.fUserDecayTablePath =
        cfg.fUserDecayTablePath ∧
      (SetUserDecayTable accessPathName path cfg).2.fUserDecay = cfg.fUserDecay) := by
  cases path with
  | none => simp [SetUserDecayTable]
  | some p =>
    by_cases hp : p.length = 0
    · have hpe : p = "" := (String.length_eq_zero_iff_eq_empty p).mp hp
      simp [SetUserDecayTable, hp, hpe]
    · have hpe : p ≠ "" := fun h => hp ((String.length_eq_zero_iff_eq_empty p).mpr h)
      by_cases ha : accessPathName p = true
      · simp [SetUserDecayTable, hp, hpe, ha]
      · simp [SetUserDecayTable, hp, hpe, ha]

/-- C15: with a null or empty path `SetUserDecayTable` returns true, clears the flag and
stores the empty path, whatever was stored; with a path that can be accessed it returns
true, stores the path and sets the flag. -/
theorem decay_table_success (accessPathName : String → Bool) (cfg : DecayTableConfig) :
    SetUserDecayTable accessPathName none cfg = (true, ⟨false, ""⟩) ∧
    SetUserDecayTable accessPathName (some "") cfg = (true, ⟨false, ""⟩) ∧
    (∀ p : String, p ≠ "" → accessPathName p = false →
      SetUserDecayTable accessPathName (some p) cfg = (true, ⟨true, p⟩)) := by
  refine ⟨rfl, rfl, ?_⟩
  intro p hp ha
  have hl : ¬ p.length = 0 := fun h => hp ((String.length_eq_zero_iff_eq_empty p).mp h)
  simp [SetUserDecayTable, hl, ha]

/-- Witness for C15: on the sample file system the path `/data/USER.DEC` is stored, and a
null path clears what was stored. -/
theorem decay_table_success_witness :
    SetUserDecayTable sampleAccessPathName (some "/data/USER.DEC") ⟨false, ""⟩ =
      (true, ⟨true, "/data/USER.DEC"⟩) ∧
    SetUserDecayTable sampleAccessPathName none ⟨true, "/data/USER.DEC"⟩ =
      (true, ⟨false, ""⟩) :=
  ⟨(decay_table_success sampleAccessPathName ⟨false, ""⟩).2.2 "/data/USER.DEC"
     (by decide) (by decide),
   (decay_table_success sampleAccessPathName ⟨true, "/data/USER.DEC"⟩).1⟩

/-- Witness for C14: on the sample file system the path `/data/NONE.DEC` is refused and
the members keep the path stored before. -/
theorem decay_table_failure_witness :
    (SetUserDecayTable sampleAccessPathName (some "/data/NONE.DEC")
      ⟨true, "/data/USER.DEC"⟩).1 = false ∧
    (SetUserDecayTable sampleAccessPathName (some "/data/NONE.DEC")
      ⟨true, "/data/USER.DEC"⟩).2 = ⟨true, "/data/USER.DEC"⟩ :=
  ⟨by decide,
   ((decay_table_failure sampleAccessPathName (some "/data/NONE.DEC")
      ⟨true, "/data/USER.DEC"⟩).2 (by decide)).1⟩

end DecayTable

/-! ## Pushes and notifications of the loop over the products (lines 182-215) -/

section Notifications

variable {σ D F : Type}

/-- The loop over the products looks up no stack particle. -/
theorem fetchesOf_pushLoop (env : Collaborators σ D F) (ops : FloatOps D F) (iTrack : Nat)
    (part : TParticle D) (particles : Nat → TParticle D) (trackIt : List Int)
    (n i : Nat) (pp : List Int) (ext : σ) :
    fetchesOf (pushLoop env ops iTrack part particles trackIt n i pp ext).events = [] := by
  unfold fetchesOf
  rw [List.filterMap_eq_nil_iff]
  intro e he
  rcases pushLoop_events_kind _ _ _ _ _ _ _ _ _ _ _ he with
    ⟨_, _, _, h⟩ | ⟨_, _, h⟩ | ⟨_, h⟩ | ⟨_, h⟩ <;> rw [h]

/-- The `KeepTrack` calls and the `SetHighWaterMark` calls of the loop carry, in order,
the values left in `nt` by the pushes that succeeded. -/
theorem pushLoop_notifications (env : Collaborators σ D F) (ops : FloatOps D F)
    (iTrack : Nat) (part : TParticle D) (particles : Nat → TParticle D) (trackIt : List Int)
    (n : Nat) : ∀ (i : Nat) (pp : List Int) (ext : σ),
    keepsOf (pushLoop env ops iTrack part particles trackIt n i pp ext).events =
      pushedIndicesOf (pushLoop env ops iTrack part particles trackIt n i pp ext).events ∧
    highWaterMarksOf (pushLoop env ops iTrack part particles trackIt n i pp ext).events =
      pushedIndicesOf (pushLoop env ops iTrack part particles trackIt n i pp ext).events := by
  induction n with
  | zero =>
    intro i pp ext
    exact ⟨rfl, rfl⟩
  | succ n ih =>
    intro i pp ext
    cases hres : resolveParent iTrack pp (jpaOf (particles i)) with
    | none =>
      rw [pushLoop_succ_none _ _ _ _ _ _ _ _ _ _ hres]
      exact ⟨rfl, rfl⟩
    | some iparent =>
      by_cases hnt : (env.pushTrack ext
          (pushArgs ops part (particles i) (trackIt.getD i 0) iparent)).2 < 0
      · rw [pushLoop_succ_fail _ _ _ _ _ _ _ _ _ _ _ hres hnt]
        obtain ⟨k1, k2⟩ := ih (i + 1) pp (env.pushTrack ext
          (pushArgs ops part (particles i) (trackIt.getD i 0) iparent)).1
        simp only [keepsOf, highWaterMarksOf, pushedIndicesOf, List.filterMap_cons, hnt,
          if_true] at k1 k2 ⊢
        exact ⟨k1, k2⟩
      · rw [pushLoop_succ_ok _ _ _ _ _ _ _ _ _ _ _ hres hnt]
        obtain ⟨k1, k2⟩ := ih (i + 1) (pp.set i (env.pushTrack ext
          (pushArgs ops part (particles i) (trackIt.getD i 0) iparent)).2)
          (env.setHighWaterMark (env.keepTrack (env.pushTrack ext
            (pushArgs ops part (particles i) (trackIt.getD i 0) iparent)).1
            (env.pushTrack ext
              (pushArgs ops part (particles i) (trackIt.getD i 0) iparent)).2)
            (env.pushTrack ext
              (pushArgs ops part (particles i) (trackIt.getD i 0) iparent)).2)
        simp only [keepsOf, highWaterMarksOf, pushedIndicesOf, List.filterMap_cons, hnt,
          if_false] at k1 k2 ⊢
        exact ⟨by rw [k1], by rw [k2]⟩

/-- The local indices pushed by the loop are the first indices of its range, in order,
and all of them when the loop is not stopped. -/
theorem pushLoop_localIndices (env : Collaborators σ D F) (ops : FloatOps D F)
    (iTrack : Nat) (part : TParticle D) (particles : Nat → TParticle D) (trackIt : List Int)
    (n : Nat) : ∀ (i : Nat) (pp : List Int) (ext : σ),
    ∃ m : Nat, m ≤ n ∧
      localIndicesOf (pushLoop env ops iTrack part particles trackIt n i pp ext).events =
        List.range' i m ∧
      ((pushLoop env ops iTrack part particles trackIt n i pp ext).halt = none → m = n) := by
  induction n with
  | zero =>
    intro i pp ext
    exact ⟨0, le_refl _, rfl, fun _ => rfl⟩
  | succ n ih =>
    intro i pp ext
    cases hres : resolveParent iTrack pp (jpaOf (particles i)) with
    | none =>
      rw [pushLoop_succ_none _ _ _ _ _ _ _ _ _ _ hres]
      exact ⟨0, Nat.zero_le _, rfl, fun h => by simp at h⟩
    | some iparent =>
      by_cases hnt : (env.pushTrack ext
          (pushArgs ops part (particles i) (trackIt.getD i 0) iparent)).2 < 0
      · rw [pushLoop_succ_fail _ _ _ _ _ _ _ _ _ _ _ hres hnt]
        obtain ⟨m, hm, hl, hh⟩ := ih (i + 1) pp (env.pushTrack ext
          (pushArgs ops part (particles i) (trackIt.getD i 0) iparent)).1
        refine ⟨m + 1, by omega, ?_, fun h => by rw [hh h]⟩
        simp only [localIndicesOf, List.filterMap_cons] at hl ⊢
        rw [hl, List.range'_succ]
      · rw [pushLoop_succ_ok _ _ _ _ _ _ _ _ _ _ _ hres hnt]
        obtain ⟨m, hm, hl, hh⟩ := ih (i + 1) (pp.set i (env.pushTrack ext
          (pushArgs ops part (particles i) (trackIt.getD i 0) iparent)).2)
          (env.setHighWaterMark (env.keepTrack (env.pushTrack ext
            (pushArgs ops part (particles i) (trackIt.getD i 0) iparent)).1
            (env.pushTrack ext
              (pushArgs ops part (particles i) (trackIt.getD i 0) iparent)).2)
            (env.pushTrack ext
              (pushArgs ops part (particles i) (trackIt.getD i 0) iparent)).2)
        refine ⟨m + 1, by omega, ?_, fun h => by rw [hh h]⟩
        simp only [localIndicesOf, List.filterMap_cons] at hl ⊢
        rw [hl, List.range'_succ]

/-- The vector `pParent` when the loop ends: the entries outside the range of the loop
are untouched, the entry of a product whose push failed is untouched, and the entry of
a product whose push succeeded holds the value the push returned. -/
theorem pushLoop_pParent (env : Collaborators σ D F) (ops : FloatOps D F)
    (iTrack : Nat) (part : TParticle D) (particles : Nat → TParticle D) (trackIt : List Int)
    (n : Nat) : ∀ (i : Nat) (pp : List Int) (ext : σ), i + n ≤ pp.length →
    (∀ idx : Nat, (idx < i ∨ i + n ≤ idx) →
      (pushLoop env ops iTrack part particles trackIt n i pp ext).pParent[idx]? = pp[idx]?) ∧
    (∀ (t k : Nat) (args : PushArgs F) (nt : Int),
      Event.push t k args nt ∈
        (pushLoop env ops iTrack part particles trackIt n i pp ext).events →
      (nt < 0 →
        (pushLoop env ops iTrack part particles trackIt n i pp ext).pParent[k]? = pp[k]?) ∧
      (0 ≤ nt →
        (pushLoop env ops iTrack part particles trackIt n i pp ext).pParent[k]? =
          some nt)) := by
  induction n with
  | zero =>
    intro i pp ext _
    refine ⟨fun idx _ => rfl, ?_⟩
    intro t k args nt h
    simp [pushLoop_zero] at h
  | succ n ih =>
    intro i pp ext hlen
    cases hres : resolveParent iTrack pp (jpaOf (particles i)) with
    | none =>
      rw [pushLoop_succ_none _ _ _ _ _ _ _ _ _ _ hres]
      refine ⟨fun idx _ => rfl, ?_⟩
      intro t k args nt h
      simp at h
    | some iparent =>
      by_cases hnt : (env.pushTrack ext
          (pushArgs ops part (particles i) (trackIt.getD i 0) iparent)).2 < 0
      · rw [pushLoop_succ_fail _ _ _ _ _ _ _ _ _ _ _ hres hnt]
        obtain ⟨f1, f2⟩ := ih (i + 1) pp (env.pushTrack ext
          (pushArgs ops part (particles i) (trackIt.getD i 0) iparent)).1 (by omega)
        refine ⟨fun idx hidx => f1 idx (by omega), ?_⟩
        intro t k args nt h
        simp only [List.mem_cons, Event.push.injEq, reduceCtorEq, false_or] at h
        rcases h with ⟨_, rfl, _, rfl⟩ | h
        · exact ⟨fun _ => f1 k (by omega), fun h0 => absurd hnt (by omega)⟩
        · exact f2 t k args nt h
      · rw [pushLoop_succ_ok _ _ _ _ _ _ _ _ _ _ _ hres hnt]
        obtain ⟨f1, f2⟩ := ih (i + 1) (pp.set i (env.pushTrack ext
          (pushArgs ops part (particles i) (trackIt.getD i 0) iparent)).2)
          (env.setHighWaterMark (env.keepTrack (env.pushTrack ext
            (pushArgs ops part (particles i) (trackIt.getD i 0) iparent)).1
            (env.pushTrack ext
              (pushArgs ops part (particles i) (trackIt.getD i 0) iparent)).2)
            (env.pushTrack ext
              (pushArgs ops part (particles i) (trackIt.getD i 0) iparent)).2)
          (by rw [List.length_set]; omega)
        refine ⟨?_, ?_⟩
        · intro idx hidx
          have hne : i ≠ idx := by omega
          have := f1 idx (by omega)
          rw [List.getElem?_set_ne hne] at this
          exact this
        · intro t k args nt h
          simp only [List.mem_cons, Event.push.injEq, reduceCtorEq, false_or] at h
          rcases h with ⟨_, rfl, _, rfl⟩ | h
          · refine ⟨fun h0 => absurd h0 hnt, fun _ => ?_⟩
            have := f1 k (Or.inl (by omega))
            rw [List.getElem?_set_self (by omega)] at this
            exact this
          · have hk := pushLoop_push_mem _ _ _ _ _ _ _ _ _ _ _ _ _ _ h
            have hne : i ≠ k := by omega
            obtain ⟨g1, g2⟩ := f2 t k args nt h
            refine ⟨fun h0 => ?_, g2⟩
            have := g1 h0
            rw [List.getElem?_set_ne hne] at this
            exact this

end Notifications

/-! ## The readings of the log of a pass -/

section PassLog

variable {σ D F : Type}

/-- The events of the body of the loop for the index `iTrack`, in order: the lookup of
the record, then warnings of line 133 and engine invocations, then nothing more or the
events of the loop over the products of an answer. -/
theorem processTrack_log_eq (env : Collaborators σ D F) (ops : FloatOps D F)
    (sw : SwitchOff) (fuel : Nat) (iTrack : Nat) (s : State σ D F) :
    ∃ quiet post : List (Event D F),
      (processTrack env ops sw fuel iTrack s).log =
        s.log ++ Event.fetch iTrack :: (quiet ++ post) ∧
      (∀ e ∈ quiet, (∃ pdg, e = Event.warnDecayed iTrack pdg) ∨
        (∃ pdg mom np, e = Event.decay iTrack pdg mom np)) ∧
      (post = [] ∨ ∃ (np : Int) (particles : Nat → TParticle D) (ext1 : σ),
        post = (pushProducts env ops iTrack (markDecayed (s.parts iTrack)) np particles
          ext1).events) := by
  unfold processTrack
  by_cases hsw : passesSwitch sw (GetFlavour (s.parts iTrack).pdgCode) = false
  · exact ⟨[], [], by simp [hsw], by simp, Or.inl rfl⟩
  · have hsw2 : passesSwitch sw (GetFlavour (s.parts iTrack).pdgCode) = true := by
      simpa using hsw
    by_cases hel : (s.parts iTrack).statusCode ≠ 1 ∨ (s.parts iTrack).nDaughters > 0
    · refine ⟨(if abs32 (s.parts iTrack).pdgCode > 10 then
          [Event.warnDecayed iTrack (s.parts iTrack).pdgCode] else []), [], ?_, ?_,
          Or.inl rfl⟩
      · simp only [hsw2, hel, if_true, Bool.true_eq_false, if_false]
        simp
      · intro e he
        split at he
        · exact Or.inl ⟨_, by simpa using he⟩
        · simp at he
    · simp only [hsw2, hel, if_false, Bool.true_eq_false]
      obtain ⟨hd1, _⟩ := decayLoop_events env iTrack (markDecayed (s.parts iTrack)).pdgCode
        (momentumOf (markDecayed (s.parts iTrack))) fuel s.ext
      cases hres : (decayLoop env iTrack (markDecayed (s.parts iTrack)).pdgCode
          (momentumOf (markDecayed (s.parts iTrack))) fuel s.ext).result with
      | none =>
        refine ⟨(decayLoop env iTrack (markDecayed (s.parts iTrack)).pdgCode
          (momentumOf (markDecayed (s.parts iTrack))) fuel s.ext).events, [], by simp, ?_,
          Or.inl rfl⟩
        intro e he
        obtain ⟨np, rfl⟩ := hd1 e he
        exact Or.inr ⟨_, _, _, rfl⟩
      | some r =>
        obtain ⟨np, particles⟩ := r
        refine ⟨(decayLoop env iTrack (markDecayed (s.parts iTrack)).pdgCode
          (momentumOf (markDecayed (s.parts iTrack))) fuel s.ext).events,
          (pushProducts env ops iTrack (markDecayed (s.parts iTrack)) np particles
            (decayLoop env iTrack (markDecayed (s.parts iTrack)).pdgCode
              (momentumOf (markDecayed (s.parts iTrack))) fuel s.ext).ext).events,
          by simp, ?_, Or.inr ⟨np, particles, _, rfl⟩⟩
        intro e he
        obtain ⟨np2, rfl⟩ := hd1 e he
        exact Or.inr ⟨_, _, _, rfl⟩

/-- The body of the loop for the index `iTrack` looks up the record of `iTrack` once and
no other record. -/
theorem processTrack_fetches (env : Collaborators σ D F) (ops : FloatOps D F)
    (sw : SwitchOff) (fuel : Nat) (iTrack : Nat) (s : State σ D F) :
    fetchesOf (processTrack env ops sw fuel iTrack s).log = fetchesOf s.log ++ [iTrack] := by
  obtain ⟨quiet, post, hlog, hq, hp⟩ := processTrack_log_eq env ops sw fuel iTrack s
  have hq0 : fetchesOf quiet = [] := by
    unfold fetchesOf
    rw [List.filterMap_eq_nil_iff]
    intro e he
    rcases hq e he with ⟨_, h⟩ | ⟨_, _, _, h⟩ <;> rw [h]
  have hp0 : fetchesOf post = [] := by
    rcases hp with rfl | ⟨np, particles, ext1, rfl⟩
    · rfl
    · exact fetchesOf_pushLoop _ _ _ _ _ _ _ _ _ _
  rw [hlog]
  have e1 : fetchesOf (s.log ++ Event.fetch iTrack :: (quiet ++ post)) =
      fetchesOf s.log ++ (iTrack :: (fetchesOf quiet ++ fetchesOf post)) := by
    simp only [fetchesOf, List.filterMap_append, List.filterMap_cons]
  rw [e1, hq0, hp0]
  rfl

/-- The body of the loop for the index `iTrack` keeps the `KeepTrack` calls and the
`SetHighWaterMark` calls in step with the pushes that succeeded. -/
theorem processTrack_notifications (env : Collaborators σ D F) (ops : FloatOps D F)
    (sw : SwitchOff) (fuel : Nat) (iTrack : Nat) (s : State σ D F)
    (h1 : keepsOf s.log = pushedIndicesOf s.log)
    (h2 : highWaterMarksOf s.log = pushedIndicesOf s.log) :
    keepsOf (processTrack env ops sw fuel iTrack s).log =
      pushedIndicesOf (processTrack env ops sw fuel iTrack s).log ∧
    highWaterMarksOf (processTrack env ops sw fuel iTrack s).log =
      pushedIndicesOf (processTrack env ops sw fuel iTrack s).log := by
  obtain ⟨quiet, post, hlog, hq, hp⟩ := processTrack_log_eq env ops sw fuel iTrack s
  have hqk : keepsOf quiet = [] := by
    unfold keepsOf
    rw [List.filterMap_eq_nil_iff]
    intro e he
    rcases hq e he with ⟨_, h⟩ | ⟨_, _, _, h⟩ <;> rw [h]
  have hqh : highWaterMarksOf quiet = [] := by
    unfold highWaterMarksOf
    rw [List.filterMap_eq_nil_iff]
    intro e he
    rcases hq e he with ⟨_, h⟩ | ⟨_, _, _, h⟩ <;> rw [h]
  have hqp : pushedIndicesOf quiet = [] := by
    unfold pushedIndicesOf
    rw [List.filterMap_eq_nil_iff]
    intro e he
    rcases hq e he with ⟨_, h⟩ | ⟨_, _, _, h⟩ <;> rw [h]
  have hpost : keepsOf post = pushedIndicesOf post ∧
      highWaterMarksOf post = pushedIndicesOf post := by
    rcases hp with rfl | ⟨np, particles, ext1, rfl⟩
    · exact ⟨rfl, rfl⟩
    · exact pushLoop_notifications _ _ _ _ _ _ _ _ _ _
  have ek : keepsOf (s.log ++ Event.fetch iTrack :: (quiet ++ post)) =
      keepsOf s.log ++ (keepsOf quiet ++ keepsOf post) := by
    simp only [keepsOf, List.filterMap_append, List.filterMap_cons]
  have eh : highWaterMarksOf (s.log ++ Event.fetch iTrack :: (quiet ++ post)) =
      highWaterMarksOf s.log ++ (highWaterMarksOf quiet ++ highWaterMarksOf post) := by
    simp only [highWaterMarksOf, List.filterMap_append, List.filterMap_cons]
  have ep : pushedIndicesOf (s.log ++ Event.fetch iTrack :: (quiet ++ post)) =
      pushedIndicesOf s.log ++ (pushedIndicesOf quiet ++ pushedIndicesOf post) := by
    simp only [pushedIndicesOf, List.filterMap_append, List.filterMap_cons]
  rw [hlog, ek, eh, ep, hqk, hqh, hqp, h1, h2, hpost.1, hpost.2]
  exact ⟨rfl, rfl⟩

/-- The records looked up by the loop over the stack are the first indices of its range,
in order, and all of them when the loop is not stopped. -/
theorem trackLoop_fetches (env : Collaborators σ D F) (ops : FloatOps D F)
    (sw : SwitchOff) (fuel : Nat) (n : Nat) : ∀ (iTrack : Nat) (s : State σ D F),
    ∃ m : Nat, m ≤ n ∧
      fetchesOf (trackLoop env ops sw fuel n iTrack s).log =
        fetchesOf s.log ++ List.range' iTrack m ∧
      ((trackLoop env ops sw fuel n iTrack s).halt = none → m = n) := by
  induction n with
  | zero =>
    intro iTrack s
    exact ⟨0, le_refl _, by simp [trackLoop], fun _ => rfl⟩
  | succ n ih =>
    intro iTrack s
    cases hh : s.halt with
    | some h =>
      rw [trackLoop_halted _ _ _ _ _ _ _ h hh]
      exact ⟨0, Nat.zero_le _, by simp, fun h0 => by rw [hh] at h0; cases h0⟩
    | none =>
      rw [trackLoop_succ _ _ _ _ _ _ _ hh]
      obtain ⟨m, hm, hl, hdone⟩ := ih (iTrack + 1) (processTrack env ops sw fuel iTrack s)
      refine ⟨m + 1, by omega, ?_, fun h0 => by rw [hdone h0]⟩
      rw [hl, processTrack_fetches, List.append_assoc, List.range'_succ]
      rfl

/-- The loop over the stack keeps the `KeepTrack` calls and the `SetHighWaterMark` calls
in step with the pushes that succeeded. -/
theorem trackLoop_notifications (env : Collaborators σ D F) (ops : FloatOps D F)
    (sw : SwitchOff) (fuel : Nat) (n : Nat) : ∀ (iTrack : Nat) (s : State σ D F),
    keepsOf s.log = pushedIndicesOf s.log →
    highWaterMarksOf s.log = pushedIndicesOf s.log →
    keepsOf (trackLoop env ops sw fuel n iTrack s).log =
      pushedIndicesOf (trackLoop env ops sw fuel n iTrack s).log ∧
    highWaterMarksOf (trackLoop env ops sw fuel n iTrack s).log =
      pushedIndicesOf (trackLoop env ops sw fuel n iTrack s).log := by
  induction n with
  | zero =>
    intro iTrack s h1 h2
    exact ⟨h1, h2⟩
  | succ n ih =>
    intro iTrack s h1 h2
    cases hh : s.halt with
    | some h =>
      rw [trackLoop_halted _ _ _ _ _ _ _ h hh]
      exact ⟨h1, h2⟩
    | none =>
      rw [trackLoop_succ _ _ _ _ _ _ _ hh]
      obtain ⟨k1, k2⟩ := processTrack_notifications env ops sw fuel iTrack s h1 h2
      exact ih (iTrack + 1) _ k1 k2

theorem mem_fetchesOf (es : List (Event D F)) (c : Nat) :
    c ∈ fetchesOf es ↔ Event.fetch c ∈ es := by
  unfold fetchesOf
  rw [List.mem_filterMap]
  constructor
  · rintro ⟨e, he, h⟩
    cases e <;> simp at h
    subst h
    exact he
  · intro h
    exact ⟨_, h, rfl⟩

/-- A pass of `Generate` that is not stopped looks up every index below the count of
primaries read at the start, in order. -/
theorem snapshot_fetches_of_done (env : Collaborators σ D F) (ops : FloatOps D F)
    (sw : SwitchOff) (fuel : Nat) (ext : σ) (parts : Nat → TParticle D)
    (hh : (Generate env ops sw fuel ext parts).halt = none) :
    fetchesOf (Generate env ops sw fuel ext parts).log =
      List.range (env.getNprimary ext).toNat := by
  obtain ⟨m, _, hl, hdone⟩ := trackLoop_fetches env ops sw fuel (env.getNprimary ext).toNat 0
    ⟨ext, parts, [], none⟩
  rw [List.range_eq_range', ← hdone hh]
  simpa [Generate, fetchesOf] using hl

end PassLog

/-! ## The scan of the stack, the pushes and the notifications -/

section Scan

variable {σ D F : Type}

/-- The value a push of the loop leaves in `nt` is what `PushTrack` returned for the
arguments of that push in some state of the collaborators. -/
theorem pushLoop_push_result (env : Collaborators σ D F) (ops : FloatOps D F) (iTrack : Nat)
    (part : TParticle D) (particles : Nat → TParticle D) (trackIt : List Int)
    (n : Nat) : ∀ (i : Nat) (pp : List Int) (ext : σ) (t k : Nat) (args : PushArgs F) (nt : Int),
    Event.push t k args nt ∈
      (pushLoop env ops iTrack part particles trackIt n i pp ext).events →
    ∃ e : σ, nt = (env.pushTrack e args).2 := by
  induction n with
  | zero =>
    intro i pp ext t k args nt h
    simp [pushLoop_zero] at h
  | succ n ih =>
    intro i pp ext t k args nt h
    cases hres : resolveParent iTrack pp (jpaOf (particles i)) with
    | none =>
      rw [pushLoop_succ_none _ _ _ _ _ _ _ _ _ _ hres] at h
      simp at h
    | some iparent =>
      by_cases hnt : (env.pushTrack ext
          (pushArgs ops part (particles i) (trackIt.getD i 0) iparent)).2 < 0
      · rw [pushLoop_succ_fail _ _ _ _ _ _ _ _ _ _ _ hres hnt] at h
        simp only [List.mem_cons, Event.push.injEq, reduceCtorEq, false_or] at h
        rcases h with ⟨_, _, rfl, rfl⟩ | h
        · exact ⟨ext, rfl⟩
        · exact ih _ _ _ _ _ _ _ h
      · rw [pushLoop_succ_ok _ _ _ _ _ _ _ _ _ _ _ hres hnt] at h
        simp only [List.mem_cons, Event.push.injEq, reduceCtorEq, false_or] at h
        rcases h with ⟨_, _, rfl, rfl⟩ | h
        · exact ⟨ext, rfl⟩
        · exact ih _ _ _ _ _ _ _ h

/-- C16: `Generate` reads the count of primaries once, at the start, and looks up the
records of the indices below that count, each once and in increasing order (all of them
when the pass is not stopped); an index at or beyond that count is never looked up, never
handed to the engine and never a candidate of a push, whatever the count becomes during
the pass. -/
theorem snapshot_is_scanned_once (env : Collaborators σ D F) (ops : FloatOps D F)
    (sw : SwitchOff) (fuel : Nat) (ext : σ) (parts : Nat → TParticle D) :
    (∃ m : Nat, m ≤ (env.getNprimary ext).toNat ∧
      fetchesOf (Generate env ops sw fuel ext parts).log = List.range m) ∧
    ((Generate env ops sw fuel ext parts).halt = none →
      fetchesOf (Generate env ops sw fuel ext parts).log =
        List.range (env.getNprimary ext).toNat) ∧
    (∀ c : Nat, env.getNprimary ext ≤ (c : Int) →
      Event.fetch c ∉ (Generate env ops sw fuel ext parts).log ∧
      (∀ (pdg : Int) (mom : LorentzVector D) (np : Int),
        Event.decay c pdg mom np ∉ (Generate env ops sw fuel ext parts).log) ∧
      (∀ (k : Nat) (args : PushArgs F) (nt : Int),
        Event.push c k args nt ∉ (Generate env ops sw fuel ext parts).log)) := by
  obtain ⟨m, hm, hl, hdone⟩ := trackLoop_fetches env ops sw fuel (env.getNprimary ext).toNat 0
    ⟨ext, parts, [], none⟩
  have hl2 : fetchesOf (Generate env ops sw fuel ext parts).log = List.range m := by
    rw [List.range_eq_range']
    simpa [Generate, fetchesOf] using hl
  refine ⟨⟨m, hm, hl2⟩, ?_, ?_⟩
  · intro hh
    rw [hl2, hdone hh]
  · intro c hc
    refine ⟨?_, ?_, ?_⟩
    · intro hmem
      have : c ∈ List.range m := by
        rw [← hl2]
        exact (mem_fetchesOf _ c).mpr hmem
      rw [List.mem_range] at this
      omega
    · intro pdg mom np hmem
      have := (Generate_decay_mem _ _ _ _ _ _ _ _ _ _ hmem).1
      omega
    · intro k args nt hmem
      have := (Generate_push_mem _ _ _ _ _ _ _ _ _ _ hmem).1
      omega

/-- Witness for C16: a stack of one candidate; three products are pushed, the count of
the stack grows from 1 to 4, and the record 0 is the only one looked up. -/
theorem snapshot_is_scanned_once_witness :
    (sampleEnv 0 4 answer002 0).getNprimary
      (Generate (sampleEnv 0 4 answer002 0) intOps defaultSwitchOff 1 ⟨1, 0, 0⟩
        (fun _ => sampleCandidate)).ext = 4 ∧
    (Generate (sampleEnv 0 4 answer002 0) intOps defaultSwitchOff 1 ⟨1, 0, 0⟩
      (fun _ => sampleCandidate)).halt = none ∧
    fetchesOf (Generate (sampleEnv 0 4 answer002 0) intOps defaultSwitchOff 1 ⟨1, 0, 0⟩
      (fun _ => sampleCandidate)).log = List.range 1 :=
  ⟨by decide, by decide,
   (snapshot_is_scanned_once (sampleEnv 0 4 answer002 0) intOps defaultSwitchOff 1 ⟨1, 0, 0⟩
     (fun _ => sampleCandidate)).2.1 (by decide)⟩

/-- C17: the loop over the products of an answer pushes the local indices 1, 2, ... in
order, each once (all of `1 .. np-1` when the loop is not stopped) and never the index 0;
each push carries the type code, the momentum and the status code of its product, the
zero polarisation, the weight 1 and the process `kPDecay`. -/
theorem one_push_per_product (env : Collaborators σ D F) (ops : FloatOps D F)
    (iTrack : Nat) (part : TParticle D) (np : Int) (particles : Nat → TParticle D) (ext : σ) :
    (∃ m : Nat, m ≤ (np - 1).toNat ∧
      localIndicesOf (pushProducts env ops iTrack part np particles ext).events =
        List.range' 1 m ∧
      ((pushProducts env ops iTrack part np particles ext).halt = none →
        m = (np - 1).toNat)) ∧
    (∀ (t i : Nat) (args : PushArgs F) (nt : Int),
      Event.push t i args nt ∈ (pushProducts env ops iTrack part np particles ext).events →
      t = iTrack ∧ 1 ≤ i ∧ (i : Int) < np ∧
      args.pdg = (particles i).pdgCode ∧
      args.pmom = (ops.toFloat (particles i).px, ops.toFloat (particles i).py,
        ops.toFloat (particles i).pz) ∧
      args.is = (particles i).statusCode ∧
      args.polar = (ops.zeroF, ops.zeroF, ops.zeroF) ∧
      args.weight = ops.oneF ∧
      args.mech = TMCProcess.kPDecay) := by
  refine ⟨pushLoop_localIndices _ _ _ _ _ _ _ _ _ _, ?_⟩
  intro t i args nt h
  obtain ⟨ht, h1, h2, e⟩ := pushProducts_push_mem _ _ _ _ _ _ _ _ _ _ _ h
  exact ⟨ht, h1, h2, congrArg PushArgs.pdg e, congrArg PushArgs.pmom e,
    congrArg PushArgs.is e, congrArg PushArgs.polar e, congrArg PushArgs.weight e,
    congrArg PushArgs.mech e⟩

/-- Witness for C17: the sample answer of count 4; the local indices pushed are 1, 2, 3
and the push of product 2 carries its type code 120 and status code 2. -/
theorem one_push_per_product_witness :
    localIndicesOf (pushProducts (sampleEnv 0 4 answer002 0) intOps 0 sampleCandidate 4
      answer002 ⟨1, 0, 0⟩).events = [1, 2, 3] ∧
    Event.push 0 2 (pushArgs intOps sampleCandidate (answer002 2) 0 0) 2 ∈
      (pushProducts (sampleEnv 0 4 answer002 0) intOps 0 sampleCandidate 4 answer002
        ⟨1, 0, 0⟩).events ∧
    (pushArgs intOps sampleCandidate (answer002 2) 0 0).pdg = 120 ∧
    (pushArgs intOps sampleCandidate (answer002 2) 0 0).is = 2 :=
  ⟨by decide, by decide,
   ((one_push_per_product (sampleEnv 0 4 answer002 0) intOps 0 sampleCandidate 4 answer002
     ⟨1, 0, 0⟩).2 0 2 (pushArgs intOps sampleCandidate (answer002 2) 0 0) 2
     (by decide)).2.2.2.1,
   ((one_push_per_product (sampleEnv 0 4 answer002 0) intOps 0 sampleCandidate 4 answer002
     ⟨1, 0, 0⟩).2 0 2 (pushArgs intOps sampleCandidate (answer002 2) 0 0) 2
     (by decide)).2.2.2.2.2.1⟩

/-- C18: a failed push stops neither the loop over the products nor the pass.  In the
loop over the products of an answer, under any behaviour of the stack: the `KeepTrack`
calls and the `SetHighWaterMark` calls carry, in order, exactly the values returned by
the pushes that succeeded; the entry of `pParent` for a product whose push failed is
still -1 when the loop ends; and when the mothers are inside the list the loop is not
stopped and pushes every product `1 .. np-1`.  In the pass: the two kinds of calls are
in step with the pushes that succeeded, and when the engine answers within the budget
with mothers inside the list the pass is not stopped and looks up every index below the
count of primaries. -/
theorem failed_push_is_skipped (env : Collaborators σ D F) (ops : FloatOps D F)
    (sw : SwitchOff) (fuel : Nat) (ext : σ) (parts : Nat → TParticle D)
    (iTrack : Nat) (part : TParticle D) (np : Int) (particles : Nat → TParticle D) (e0 : σ) :
    (keepsOf (pushProducts env ops iTrack part np particles e0).events =
        pushedIndicesOf (pushProducts env ops iTrack part np particles e0).events ∧
      highWaterMarksOf (pushProducts env ops iTrack part np particles e0).events =
        pushedIndicesOf (pushProducts env ops iTrack part np particles e0).events) ∧
    (∀ (j : Nat) (aj : PushArgs F) (ntj : Int),
      Event.push iTrack j aj ntj ∈
        (pushProducts env ops iTrack part np particles e0).events →
      ntj < 0 →
      (pushProducts env ops iTrack part np particles e0).pParent[j]? = some (-1)) ∧
    ((∀ k : Nat, 1 ≤ k → (k : Int) < np → jpaOf (particles k) < np) →
      (pushProducts env ops iTrack part np particles e0).halt = none ∧
      localIndicesOf (pushProducts env ops iTrack part np particles e0).events =
        List.range' 1 (np - 1).toNat) ∧
    (keepsOf (Generate env ops sw fuel ext parts).log =
        pushedIndicesOf (Generate env ops sw fuel ext parts).log ∧
      highWaterMarksOf (Generate env ops sw fuel ext parts).log =
        pushedIndicesOf (Generate env ops sw fuel ext parts).log) ∧
    ((∀ (e : σ) (pdg : Int) (mom : LorentzVector D),
        ∃ K : Nat, K < fuel ∧ 0 ≤ (decayAnswer env pdg mom K e).2.1) →
      (∀ (e : σ) (pdg : Int) (mom : LorentzVector D) (k : Nat),
        1 ≤ k → (k : Int) < (env.decay e pdg mom).2.1 →
        jpaOf ((env.decay e pdg mom).2.2 k) < (env.decay e pdg mom).2.1) →
      (Generate env ops sw fuel ext parts).halt = none ∧
      fetchesOf (Generate env ops sw fuel ext parts).log =
        List.range (env.getNprimary ext).toNat) := by
  refine ⟨pushLoop_notifications _ _ _ _ _ _ _ _ _ _, ?_, ?_,
    trackLoop_notifications env ops sw fuel _ 0 ⟨ext, parts, [], none⟩ rfl rfl, ?_⟩
  · intro j aj ntj hj hfail
    obtain ⟨_, hj1, hj2, _⟩ := pushProducts_push_mem _ _ _ _ _ _ _ _ _ _ _ hj
    have hlen : 1 + (np - 1).toNat ≤ (mkPParent np).length := by
      simp only [mkPParent, List.length_replicate]
      omega
    have h := ((pushLoop_pParent _ _ _ _ _ _ _ _ _ _ hlen).2 _ _ _ _ hj).1 hfail
    rw [pushProducts, h]
    simp only [mkPParent, List.getElem?_replicate]
    rw [if_pos (by omega)]
  · intro hr
    have hh : (pushProducts env ops iTrack part np particles e0).halt = none := by
      apply pushLoop_halt_none
      intro k h1 h2
      have := hr k h1 (by omega)
      simp only [mkPParent, List.length_replicate]
      omega
    obtain ⟨m, _, hl, hm⟩ := pushLoop_localIndices env ops iTrack part particles
      (mkTrackIt np particles) (np - 1).toNat 1 (mkPParent np) e0
    refine ⟨hh, ?_⟩
    rw [← hm hh]
    exact hl
  · intro hresp hrange
    have hh := Generate_completes env ops sw fuel ext parts hresp hrange
    exact ⟨hh, (snapshot_fetches_of_done env ops sw fuel ext parts hh)⟩

/-- Witness for C18: first-mother fields `[_, 1, 1, 3]`, the push of product 2 fails; the
loop still pushes product 3, the notifications carry the indices 1 and 2 returned by the
pushes of products 1 and 3, and `pParent[2]` is still -1. -/
theorem failed_push_is_skipped_witness :
    parentsOf (pushProducts (sampleEnv 0 4 answer113 2) intOps 0 sampleCandidate 4 answer113
      ⟨1, 0, 0⟩).events = [(1, 0, 1), (2, 0, -1), (3, -1, 2)] ∧
    keepsOf (pushProducts (sampleEnv 0 4 answer113 2) intOps 0 sampleCandidate 4 answer113
      ⟨1, 0, 0⟩).events = [1, 2] ∧
    highWaterMarksOf (pushProducts (sampleEnv 0 4 answer113 2) intOps 0 sampleCandidate 4
      answer113 ⟨1, 0, 0⟩).events = [1, 2] ∧
    (pushProducts (sampleEnv 0 4 answer113 2) intOps 0 sampleCandidate 4 answer113
      ⟨1, 0, 0⟩).pParent[2]? = some (-1) :=
  ⟨by decide, by decide, by decide,
   (failed_push_is_skipped (sampleEnv 0 4 answer113 2) intOps defaultSwitchOff 1 ⟨1, 0, 0⟩
     (fun _ => sampleCandidate) 0 sampleCandidate 4 answer113 ⟨1, 0, 0⟩).2.1 2
     (pushArgs intOps sampleCandidate (answer113 2) 0 0) (-1) (by decide) (by decide)⟩

end Scan

/-! ## Resolved parents (lines 152-158 and 182-215) -/

section Resolved

variable {σ D F : Type}

/-- C20: for an answer of count `np` in which every product `1 ≤ k < np` has its
first-mother index minus 1 (the `Int_t` value `jpa` of line 186, which is `2^31 - 1` for
the first-mother index `-2^31`) below `k`, and a loop in which every push succeeds: the loop
is not stopped (no read of `pParent` leaves the vector), every index read lies in
`0 .. np-1`, every product is pushed, and the parent passed is the candidate's stack
index or the value returned by the push of an earlier product, never -1; `jpa` is the
first-mother index minus 1 for a first-mother index of the `Int_t` range above `-2^31`. -/
theorem parents_are_resolved (env : Collaborators σ D F) (ops : FloatOps D F)
    (iTrack : Nat) (part : TParticle D) (np : Int) (particles : Nat → TParticle D) (ext : σ)
    (hm : ∀ k : Nat, 1 ≤ k → (k : Int) < np → jpaOf (particles k) < k)
    (hok : ∀ (k : Nat) (args : PushArgs F) (nt : Int),
      Event.push iTrack k args nt ∈
        (pushProducts env ops iTrack part np particles ext).events → 0 ≤ nt) :
    (pushProducts env ops iTrack part np particles ext).halt = none ∧
    ∀ k : Nat, 1 ≤ k → (k : Int) < np →
      (0 < jpaOf (particles k) →
        jpaOf (particles k) ≤ np - 1 ∧
        (mkPParent np)[(jpaOf (particles k)).toNat]? ≠ none) ∧
      ∃ (args : PushArgs F) (nt : Int),
        Event.push iTrack k args nt ∈
          (pushProducts env ops iTrack part np particles ext).events ∧
        (args.parent = iTrack ∨
          ∃ (j : Nat) (aj : PushArgs F) (ntj : Int), 1 ≤ j ∧ j < k ∧
            Event.push iTrack j aj ntj ∈
              (pushProducts env ops iTrack part np particles ext).events ∧
            args.parent = ntj) ∧
        args.parent ≠ -1 ∧
        (-2147483648 < (particles k).firstMother → (particles k).firstMother < 2147483648 →
          jpaOf (particles k) = (particles k).firstMother - 1) := by
  have hh : (pushProducts env ops iTrack part np particles ext).halt = none := by
    apply pushLoop_halt_none
    intro k h1 h2
    have := hm k h1 (by omega)
    simp only [mkPParent, List.length_replicate]
    omega
  refine ⟨hh, ?_⟩
  intro k h1 h2
  have hmk := hm k h1 h2
  refine ⟨?_, ?_⟩
  · intro hpos
    refine ⟨by omega, ?_⟩
    simp only [mkPParent, List.getElem?_replicate]
    rw [if_pos (by omega)]
    simp
  · obtain ⟨args, nt, hmem⟩ := pushLoop_push_exists _ _ _ _ _ _ _ _ _ _ hh k h1 (by omega)
    have hlen : 1 + (np - 1).toNat ≤ (mkPParent np).length := by
      simp only [mkPParent, List.length_replicate]
      omega
    obtain ⟨p1, _, p3⟩ := pushLoop_parent _ _ _ _ _ _ _ _ _ _ _ _ _ _ hlen hmem
    by_cases hj : jpaOf (particles k) ≤ 0
    · have hp := p1 hj
      exact ⟨args, nt, hmem, Or.inl hp, by rw [hp]; omega,
        fun g1 g2 => jpaOf_eq (particles k) g1 g2⟩
    · obtain ⟨aj, ntj, hmemj⟩ := pushLoop_push_exists _ _ _ _ _ _ _ _ _ _ hh
        (jpaOf (particles k)).toNat (by omega) (by omega)
      have hnt := hok _ _ _ hmemj
      have hp := (p3 (by omega) (by omega) (by omega) iTrack aj ntj hmemj).1 hnt
      exact ⟨args, nt, hmem, Or.inr ⟨_, aj, ntj, by omega, by omega, hmemj, hp⟩,
        by rw [hp]; omega, fun g1 g2 => jpaOf_eq (particles k) g1 g2⟩

/-- Witness for C20: the sample answer with first-mother fields `[_, 0, 0, 2]` on a stack
whose pushes all succeed; the loop is not stopped.  (With the first-mother index `-2^31`
the hypothesis on the mothers fails, `jpa` being `2^31 - 1`.) -/
theorem parents_are_resolved_witness :
    (pushProducts (sampleEnv 0 4 answer002 0) intOps 0 sampleCandidate 4 answer002
      ⟨1, 0, 0⟩).halt = none ∧
    parentsOf (pushProducts (sampleEnv 0 4 answer002 0) intOps 0 sampleCandidate 4 answer002
      ⟨1, 0, 0⟩).events = [(1, 0, 1), (2, 0, 2), (3, 1, 3)] ∧
    ¬ (jpaOf (answerMin 1) < 1) :=
  ⟨(parents_are_resolved (sampleEnv 0 4 answer002 0) intOps 0 sampleCandidate 4 answer002
     ⟨1, 0, 0⟩
     (fun k h1 h2 => by
       have hk : k = 1 ∨ k = 2 ∨ k = 3 := by omega
       rcases hk with rfl | rfl | rfl
       · decide
       · decide
       · decide)
     (fun k args nt h => by
       obtain ⟨e, he⟩ := pushLoop_push_result _ _ _ _ _ _ _ _ _ _ _ _ _ _ h
       have hne : ¬ (e.pushCalls + 1 = 0) := Nat.succ_ne_zero _
       rw [he]
       simp [sampleEnv, hne])).1,
   by decide, by decide⟩

end Resolved

end AliGenEvtGen
